import Mathlib

/-!
# withmock: the artifact cache (`lib/cache_file.go`) and the mock configuration (`lib/config.go`)

A shallow embedding of the cache engine of withmock.  Go strings are byte
sequences, the filesystem is an explicit state (directory entries and inodes),
and every method of `CacheFile` is a function from the entry and the filesystem
to a result, the new entry and the new filesystem.

Library code that the repository calls but does not contain is modelled as
follows.

* SHA-512 and the gob codec are parameters (`Env`).  Of SHA-512 only the digest
  size is used.
* `encoding/hex`, `encoding/json` (string escaping of the encoder, HTML escaping
  on) and `unicode/utf8` are transcribed from the Go standard library.
* The `os` calls follow the Go library on a single-user POSIX filesystem
  (`os.Rename` with its refusal of an existing directory as the new name): an
  operation fails for structural reasons only (missing entry, existing entry,
  directory where a file is needed, missing read permission, closed handle).
* Paths are absolute: the cache root, the destination of `Install` and the
  targets of symbolic links are lists of components below the filesystem root.
-/

set_option autoImplicit false
set_option maxRecDepth 100000

namespace Withmock

/-! ## Bytes and strings -/

/-- One byte. -/
abbrev Byte := Fin 256

/-- Go strings are arbitrary byte sequences (not necessarily valid UTF-8). -/
abbrev GoString := List Byte

/-- The bytes of an ASCII literal. -/
def lit (s : String) : GoString := s.data.map fun c => Fin.ofNat c.toNat

/-- The table `"0123456789abcdef"` of `encoding/hex`, indexed by a nibble. -/
def hexDigit (n : Nat) : Byte :=
  if n < 10 then Fin.ofNat (48 + n) else Fin.ofNat (87 + n)

/-- Go `hex.EncodeToString`: two lowercase hex digits per byte. -/
def hexEncode : List Byte → GoString
  | [] => []
  | b :: bs => hexDigit (b.val / 16) :: hexDigit (b.val % 16) :: hexEncode bs

/-! ## Library parameters -/

/-- Values stored in a record (`interface{}`): the nil interface, strings,
booleans, and any other registered value, identified by a tag. -/
inductive Value where
  | nil
  | str (s : GoString)
  | bool (b : Bool)
  | obj (tag : Nat)
deriving DecidableEq, Repr

/-- The record of a cache entry, `map[string]interface{}`, as an association
list read by first match. -/
abbrev Record := List (GoString × Value)

/-- The library functions the cache is parametrised by: SHA-512 (with its digest
size of 64 bytes) and the gob encoder and decoder for records, either of which
may fail. -/
structure Env where
  sha512 : List Byte → List Byte
  sha512_size : ∀ m, (sha512 m).length = 64
  gobEncode : Record → Option (List Byte)
  gobDecode : List Byte → Option Record

/-! ## unicode/utf8 -/

/-- The constant `utf8.RuneError`, U+FFFD. -/
def RuneError : Nat := 0xFFFD

/-- Size of the encoding announced by a first byte (table `first` of
`unicode/utf8`); 1 for ASCII and for bytes that cannot start a rune. -/
def runeSize (s0 : Byte) : Nat :=
  if s0.val < 0xC2 then 1
  else if s0.val < 0xE0 then 2
  else if s0.val < 0xF0 then 3
  else if s0.val < 0xF5 then 4
  else 1

/-- Accepted range of the second byte (table `acceptRanges`). -/
def acceptRange (s0 : Byte) : Nat × Nat :=
  if s0.val = 0xE0 then (0xA0, 0xBF)
  else if s0.val = 0xED then (0x80, 0x9F)
  else if s0.val = 0xF0 then (0x90, 0xBF)
  else if s0.val = 0xF4 then (0x80, 0x8F)
  else (0x80, 0xBF)

/-- A continuation byte, `0x80 .. 0xBF`. -/
def isCont (b : Byte) : Bool := 0x80 ≤ b.val && b.val ≤ 0xBF

/-- Go `utf8.DecodeRuneInString`: the first rune of the string and its width in
bytes; `(RuneError, 1)` for an invalid encoding and `(RuneError, 0)` for the
empty string. -/
def DecodeRuneInString : GoString → Nat × Nat
  | [] => (RuneError, 0)
  | s0 :: t =>
    if s0.val < 0x80 then (s0.val, 1)
    else if runeSize s0 = 1 then (RuneError, 1)
    else if t.length + 1 < runeSize s0 then (RuneError, 1)
    else
      match t with
      | [] => (RuneError, 1)
      | s1 :: t1 =>
        if s1.val < (acceptRange s0).1 ∨ (acceptRange s0).2 < s1.val then (RuneError, 1)
        else if runeSize s0 ≤ 2 then (s0.val % 32 * 64 + s1.val % 64, 2)
        else
          match t1 with
          | [] => (RuneError, 1)
          | s2 :: t2 =>
            if isCont s2 = false then (RuneError, 1)
            else if runeSize s0 ≤ 3 then
              (s0.val % 16 * 4096 + s1.val % 64 * 64 + s2.val % 64, 3)
            else
              match t2 with
              | [] => (RuneError, 1)
              | s3 :: _ =>
                if isCont s3 = false then (RuneError, 1)
                else (s0.val % 8 * 262144 + s1.val % 64 * 4096 + s2.val % 64 * 64
                        + s3.val % 64, 4)

/-- Loop of `utf8.ValidString`, with the length of the string as fuel. -/
def validLoop : Nat → GoString → Bool
  | _, [] => true
  | 0, _ :: _ => false
  | fuel + 1, b :: t =>
    if b.val < 0x80 then validLoop fuel t
    else if DecodeRuneInString (b :: t) = (RuneError, 1) then false
    else validLoop fuel (t.drop ((DecodeRuneInString (b :: t)).2 - 1))

/-- Go `utf8.ValidString`: the string consists of valid UTF-8 encodings only. -/
def ValidString (s : GoString) : Bool := validLoop s.length s

/-! ## encoding/json: the encoding of a cache key -/

/-- The escape sequence the JSON encoder writes for an ASCII byte outside
`htmlSafeSet`. -/
def escapeByte (b : Byte) : List Byte :=
  if b.val = 0x5C ∨ b.val = 0x22 then [0x5C, b]
  else if b.val = 0x08 then [0x5C, 0x62]
  else if b.val = 0x0C then [0x5C, 0x66]
  else if b.val = 0x0A then [0x5C, 0x6E]
  else if b.val = 0x0D then [0x5C, 0x72]
  else if b.val = 0x09 then [0x5C, 0x74]
  else [0x5C, 0x75, 0x30, 0x30, hexDigit (b.val / 16), hexDigit (b.val % 16)]

/-- Membership in `htmlSafeSet`: ASCII bytes written to the output unescaped. -/
def htmlSafe (b : Byte) : Bool :=
  0x20 ≤ b.val && b.val < 0x80 && b.val != 0x22 && b.val != 0x5C && b.val != 0x3C
    && b.val != 0x3E && b.val != 0x26

/-- The loop of `appendString` of `encoding/json`, on the rest of the string; the
fuel is the number of bytes left. -/
def appendStringLoop : Nat → GoString → List Byte
  | _, [] => []
  | 0, _ :: _ => []
  | fuel + 1, b :: t =>
    if b.val < 0x80 then
      (if htmlSafe b then [b] else escapeByte b) ++ appendStringLoop fuel t
    else if DecodeRuneInString (b :: t) = (RuneError, 1) then
      -- invalid UTF-8 is coerced to the replacement character
      [0x5C, 0x75, 0x66, 0x66, 0x66, 0x64] ++ appendStringLoop fuel t
    else if (DecodeRuneInString (b :: t)).1 = 0x2028
        ∨ (DecodeRuneInString (b :: t)).1 = 0x2029 then
      [0x5C, 0x75, 0x32, 0x30, 0x32, hexDigit ((DecodeRuneInString (b :: t)).1 % 16)]
        ++ appendStringLoop fuel (t.drop ((DecodeRuneInString (b :: t)).2 - 1))
    else
      (b :: t).take (DecodeRuneInString (b :: t)).2
        ++ appendStringLoop fuel (t.drop ((DecodeRuneInString (b :: t)).2 - 1))

/-- Go `appendString(dst, src, escapeHTML = true)`: the JSON string literal. -/
def appendString (src : GoString) : List Byte :=
  0x22 :: (appendStringLoop src.length src ++ [0x22])

/-- Source: `type cacheFileKey struct`.  The field `hash` is unexported: it is
not part of the JSON encoding and caches the fingerprint. -/
structure cacheFileKey where
  Src : GoString
  Op : GoString
  hash : GoString
deriving DecidableEq, Repr

/-- Source: `Cache.newCacheFileKey`. -/
def newCacheFileKey (src op : GoString) : cacheFileKey :=
  { Src := src, Op := op, hash := [] }

/-- What `json.NewEncoder(h).Encode(k)` writes for a key: the object with the
exported fields in declaration order, followed by a newline. -/
def jsonEncode (k : cacheFileKey) : List Byte :=
  lit "\x7b\"src\":" ++ appendString k.Src ++ lit ",\"op\":" ++ appendString k.Op
    ++ lit "\x7d\n"

/-- Source: `cacheFileKey.calcHash`. -/
def cacheFileKey.calcHash (E : Env) (k : cacheFileKey) : cacheFileKey :=
  { k with hash := hexEncode (E.sha512 (jsonEncode k)) }

/-- Source: `cacheFileKey.Hash`: the fingerprint, and the key with the
fingerprint cached. -/
def cacheFileKey.Hash (E : Env) (k : cacheFileKey) : GoString × cacheFileKey :=
  if k.hash = [] then ((k.calcHash E).hash, k.calcHash E) else (k.hash, k)

/-- Inverse of `appendString` used to show that the encoding of valid UTF-8 is
injective: reads a JSON string body up to the closing quote and returns the
decoded bytes and the rest of the input. -/
def unquote : List Byte → Option (GoString × List Byte)
  | [] => none
  | b :: t =>
    if b.val = 0x22 then some ([], t)
    else if b.val = 0x5C then
      match t with
      | [] => none
      | c :: t1 =>
        if c.val = 0x75 then
          match t1 with
          | h1 :: h2 :: h3 :: h4 :: t2 =>
            if h1.val = 0x30 ∧ h2.val = 0x30 then
              (unquote t2).map fun r =>
                (Fin.ofNat ((if h3.val < 58 then h3.val - 48 else h3.val - 87) * 16
                    + (if h4.val < 58 then h4.val - 48 else h4.val - 87)) :: r.1, r.2)
            else if h1.val = 0x32 ∧ h2.val = 0x30 ∧ h3.val = 0x32 ∧ h4.val = 0x38 then
              (unquote t2).map fun r => (0xE2 :: 0x80 :: 0xA8 :: r.1, r.2)
            else if h1.val = 0x32 ∧ h2.val = 0x30 ∧ h3.val = 0x32 ∧ h4.val = 0x39 then
              (unquote t2).map fun r => (0xE2 :: 0x80 :: 0xA9 :: r.1, r.2)
            else none
          | _ => none
        else if c.val = 0x5C ∨ c.val = 0x22 then (unquote t1).map fun r => (c :: r.1, r.2)
        else if c.val = 0x62 then (unquote t1).map fun r => (0x08 :: r.1, r.2)
        else if c.val = 0x66 then (unquote t1).map fun r => (0x0C :: r.1, r.2)
        else if c.val = 0x6E then (unquote t1).map fun r => (0x0A :: r.1, r.2)
        else if c.val = 0x72 then (unquote t1).map fun r => (0x0D :: r.1, r.2)
        else if c.val = 0x74 then (unquote t1).map fun r => (0x09 :: r.1, r.2)
        else none
    else (unquote t).map fun r => (b :: r.1, r.2)

/-! ## Association lists -/

/-- First value bound to a key. -/
def alookup {α β : Type} [DecidableEq α] (k : α) : List (α × β) → Option β
  | [] => none
  | e :: l => if e.1 = k then some e.2 else alookup k l

/-- Remove every binding of a key. -/
def adel {α β : Type} [DecidableEq α] (k : α) : List (α × β) → List (α × β)
  | [] => []
  | e :: l => if e.1 = k then adel k l else e :: adel k l

/-- Bind a key, replacing earlier bindings (Go map assignment). -/
def aset {α β : Type} [DecidableEq α] (k : α) (v : β) (l : List (α × β)) : List (α × β) :=
  (k, v) :: adel k l

/-! ## The filesystem -/

/-- A path, as the list of its components below the filesystem root. -/
abbrev Path := List GoString

/-- Go `filepath.Join` on a split base path: empty elements are ignored.  The
elements joined by the cache are literal names and hex strings, which contain no
separator. -/
def Join (base : Path) (elems : List GoString) : Path :=
  base ++ elems.filter fun e => decide (e ≠ [])

/-- A directory entry. -/
inductive Node where
  | dir
  | file (ino : Nat)
  | symlink (target : Path)
deriving DecidableEq, Repr

/-- Whether the entry is a regular file. -/
def Node.isFile : Node → Bool
  | .file _ => true
  | _ => false

/-- The content and permission bits of a regular file. -/
structure Inode where
  data : List Byte
  mode : Nat
deriving DecidableEq, Repr

/-- Filesystem state: the directory entries by path and the inode table.  The
root path `[]` is always a directory. -/
structure FS where
  entries : List (Path × Node)
  inodes : List (Nat × Inode)
deriving DecidableEq, Repr

/-- Error numbers of the modelled system calls. -/
inductive Errno where
  | ENOENT | EEXIST | ENOTDIR | EISDIR | EACCES | EPERM | ELOOP | ENOTEMPTY | EINVAL
deriving DecidableEq, Repr

/-- Modelled from the spec: the declaration of `Cerr` is not among the sources;
the spec states that storage errors are "always wrapped with the operation name
for diagnosis", and the code builds `Cerr{context, err}`.  Go errors are: a
system call error (`*os.PathError`, `*os.LinkError`), a use of a closed file
(`os.ErrClosed`), a gob failure, a `Cerr` wrapper, and a `fmt.Errorf` message. -/
inductive Error where
  | sys (op : String) (e : Errno)
  | closed
  | gob
  | cerr (context : String) (err : Error)
  | errorf (msg : String)
deriving DecidableEq, Repr

deriving instance DecidableEq for Except

/-- Go `os.IsNotExist`: looks through `*PathError`, `*LinkError` and
`*SyscallError` only, so a `Cerr` around a missing-file error does not count. -/
def IsNotExist : Error → Bool
  | .sys _ .ENOENT => true
  | _ => false

/-- An open `*os.File`: the name it was opened under, its inode, and whether it
has been closed. -/
structure File where
  name : Path
  ino : Nat
  closed : Bool
deriving DecidableEq, Repr

/-- The entry at a path. -/
def FS.node (fs : FS) (p : Path) : Option Node :=
  if p = [] then some .dir else alookup p fs.entries

/-- The inode with a number (an empty file if unallocated). -/
def FS.inode (fs : FS) (i : Nat) : Inode :=
  (alookup i fs.inodes).getD { data := [], mode := 0 }

/-- Why an entry cannot be created at `p`, judging by its parent directory. -/
def FS.parentErr (fs : FS) (p : Path) : Option Errno :=
  match fs.node p.dropLast with
  | some .dir => none
  | some _ => some .ENOTDIR
  | none => some .ENOENT

/-- Follow symbolic links at the final component, at most `fuel` of them. -/
def FS.resolve (fs : FS) : Nat → Path → Except Errno Node
  | 0, _ => .error .ELOOP
  | fuel + 1, p =>
    match fs.node p with
    | none => .error .ENOENT
    | some (.symlink t) => FS.resolve fs fuel t
    | some n => .ok n

/-- Content of the regular file a path leads to, if any. -/
def FS.content (fs : FS) (p : Path) : Option (List Byte) :=
  match fs.resolve 40 p with
  | .ok (.file i) => some (fs.inode i).data
  | _ => none

/-- The name `TempFile` tries as its `n`-th candidate: the pattern followed by a
run of `n` zero digits (the library appends a random string of digits). -/
def tmpName (pat : GoString) (n : Nat) : GoString := pat ++ List.replicate n 0x30

/-- First candidate number from `n` on whose name is unused in `dir`, trying at
most `fuel + 1` candidates. -/
def firstFree (fs : FS) (dir : Path) (pat : GoString) : Nat → Nat → Nat
  | 0, n => n
  | fuel + 1, n =>
    if (fs.node (dir ++ [tmpName pat n])).isSome then firstFree fs dir pat fuel (n + 1) else n

/-- A number above the inode numbers of the regular files among the entries. -/
def inoBound : List (Path × Node) → Nat
  | [] => 0
  | e :: es =>
    match e.2 with
    | .file i => max (i + 1) (inoBound es)
    | _ => inoBound es

/-- A number above the numbers of the inode table. -/
def tableBound : List (Nat × Inode) → Nat
  | [] => 0
  | e :: l => max (e.1 + 1) (tableBound l)

/-- An inode number above all numbers in use. -/
def FS.freshIno (fs : FS) : Nat := max (inoBound fs.entries) (tableBound fs.inodes)

/-- The path of the temporary file `TempFile` creates in `dir`. -/
def tmpPath (fs : FS) (dir : Path) (pat : GoString) : Path :=
  dir ++ [tmpName pat (firstFree fs dir pat fs.entries.length 0)]

/-- Go `ioutil.TempFile(dir, pattern)`: create and open (exclusively, mode
0600) a new empty file in `dir` under an unused name. -/
def TempFile (fs : FS) (dir : Path) (pat : GoString) : Except Error (File × FS) :=
  match fs.node dir with
  | none => .error (.sys "open" .ENOENT)
  | some .dir =>
    if (fs.node (tmpPath fs dir pat)).isSome then .error (.sys "open" .EEXIST)
    else
      .ok ({ name := tmpPath fs dir pat, ino := fs.freshIno, closed := false },
           { entries := aset (tmpPath fs dir pat) (.file fs.freshIno) fs.entries,
             inodes := aset fs.freshIno { data := [], mode := 0o600 } fs.inodes })
  | some _ => .error (.sys "open" .ENOTDIR)

/-- Loop of `os.MkdirAll`: create the missing directories along a path, top
down. -/
def MkdirAllFrom (fs : FS) (done : Path) : List GoString → Except Error FS
  | [] => .ok fs
  | c :: rest =>
    match fs.node (done ++ [c]) with
    | some .dir => MkdirAllFrom fs (done ++ [c]) rest
    | some _ => .error (.sys "mkdir" .ENOTDIR)
    | none =>
      MkdirAllFrom { fs with entries := aset (done ++ [c]) .dir fs.entries } (done ++ [c]) rest

/-- Go `os.MkdirAll`: succeeds when the directory exists already. -/
def MkdirAll (fs : FS) (p : Path) : Except Error FS := MkdirAllFrom fs [] p

/-- What `os.Open` returns: a handle on a directory or on a regular file. -/
inductive Opened where
  | dir
  | file (ino : Nat)
deriving DecidableEq, Repr

/-- Go `os.Open`: open for reading, following symbolic links; a regular file
needs the owner read bit. -/
def Open (fs : FS) (p : Path) : Except Error Opened :=
  match fs.resolve 40 p with
  | .error e => .error (.sys "open" e)
  | .ok .dir => .ok .dir
  | .ok (.file i) =>
    if (fs.inode i).mode / 256 % 2 = 1 then .ok (.file i) else .error (.sys "open" .EACCES)
  | .ok (.symlink _) => .error (.sys "open" .ELOOP)

/-- Go `(*os.File).Write`: append to the file behind the handle. -/
def File.Write (fs : FS) (f : File) (p : List Byte) : Except Error FS :=
  if f.closed then .error .closed
  else
    .ok { fs with
      inodes := aset f.ino { fs.inode f.ino with data := (fs.inode f.ino).data ++ p } fs.inodes }

/-- Go `(*os.File).Close`: fails on a handle that is closed already. -/
def File.Close (f : File) : Except Error File :=
  if f.closed then .error .closed else .ok { f with closed := true }

/-- The case of `os.Rename` where the source is a directory and the new name is
free: the entries below the directory move along.  A directory cannot move
below itself, nor replace anything that exists. -/
def renameDir (fs : FS) (old new : Path) : Except Error FS :=
  if old <+: new then .error (.sys "rename" .EINVAL)
  else
    match fs.node new with
    | some .dir => .error (.sys "rename" .EEXIST)
    | some _ => .error (.sys "rename" .ENOTDIR)
    | none =>
      .ok { fs with entries := fs.entries.map fun e =>
              if old <+: e.1 then (new ++ e.1.drop old.length, e.2) else e }

/-- Go `os.Rename`.  The library first looks at the new name (`Lstat`) and
refuses an existing directory with `EEXIST`, whatever the source is (a missing
source is reported first); otherwise it is POSIX `rename`. -/
def Rename (fs : FS) (old new : Path) : Except Error FS :=
  match fs.node old with
  | none => .error (.sys "rename" .ENOENT)
  | some n =>
    if fs.node new = some .dir then .error (.sys "rename" .EEXIST)
    else if old = new then .ok fs
    else if old = [] then .error (.sys "rename" .EINVAL)
    else
      match fs.parentErr new with
      | some e => .error (.sys "rename" e)
      | none =>
        if n = .dir then renameDir fs old new
        else
          match fs.node new with
          | some m =>
            -- two links to the same file: nothing is done
            if n = m ∧ n.isFile = true then .ok fs
            else .ok { fs with entries := aset new n (adel old fs.entries) }
          | none => .ok { fs with entries := aset new n (adel old fs.entries) }

/-- Go `os.Chmod`: follows symbolic links; directory modes are not modelled. -/
def Chmod (fs : FS) (p : Path) (mode : Nat) : Except Error FS :=
  match fs.resolve 40 p with
  | .error e => .error (.sys "chmod" e)
  | .ok (.file i) => .ok { fs with inodes := aset i { fs.inode i with mode := mode } fs.inodes }
  | .ok _ => .ok fs

/-- Go `os.Link`: a second name for an existing file; fails if the new name
exists. -/
def Link (fs : FS) (old new : Path) : Except Error FS :=
  match fs.node old with
  | none => .error (.sys "link" .ENOENT)
  | some .dir => .error (.sys "link" .EPERM)
  | some n =>
    if (fs.node new).isSome then .error (.sys "link" .EEXIST)
    else
      match fs.parentErr new with
      | some e => .error (.sys "link" e)
      | none => .ok { fs with entries := aset new n fs.entries }

/-- Go `os.Symlink`: fails if the new name exists. -/
def Symlink (fs : FS) (target new : Path) : Except Error FS :=
  if (fs.node new).isSome then .error (.sys "symlink" .EEXIST)
  else
    match fs.parentErr new with
    | some e => .error (.sys "symlink" e)
    | none => .ok { fs with entries := aset new (.symlink target) fs.entries }

/-! ## The cache entry (`lib/cache_file.go`) -/

/-- Modelled from the spec: the declaration of `Cache` is not among the sources;
the code uses its field `root` only, the "configurable cache root directory" of
the on-disk layout. -/
structure Cache where
  root : Path
deriving DecidableEq, Repr

/-- Source: `const CacheData = "_DATA_"`. -/
def CacheData : GoString := lit "_DATA_"

/-- The pattern of the temporary files of the cache. -/
def tmpPattern : GoString := lit "withmock-cache-"

/-- Source: `type CacheFile struct`.  The field `h` holds the bytes fed to the
running SHA-512 so far, `cache` the owning cache. -/
structure CacheFile where
  key : cacheFileKey
  f : File
  written : Bool
  changed : Bool
  h : List Byte
  cache : Cache
  hash : GoString
  data : Record
deriving DecidableEq, Repr

/-- A run-time panic of the Go program. -/
inductive Panic where
  | privateMember (name : GoString)
  | indexOutOfRange
  | typeAssertion
  | nilDereference
deriving DecidableEq, Repr

/-- What `dec.Decode(&cf.data)` yields on an opened file: reading a directory
fails, a regular file is decoded from its content. -/
def gobDecodeFrom (E : Env) (fs : FS) : Opened → Option Record
  | .dir => none
  | .file i => E.gobDecode (fs.inode i).data

/-- Source: `Cache.loadFile`.  Returns the result, the key (whose fingerprint is
cached once it has been computed) and the filesystem. -/
def Cache.loadFile (E : Env) (c : Cache) (key : cacheFileKey) (fs : FS) :
    Except Error CacheFile × cacheFileKey × FS :=
  match TempFile fs (Join c.root [lit "files"]) tmpPattern with
  | .error e => (.error (.cerr "TempFile" e), key, fs)
  | .ok (tf, fs1) =>
    match Open fs1 (Join c.root [lit "metadata", (key.Hash E).1]) with
    | .error e => (.error e, (key.Hash E).2, fs1)
    | .ok fh =>
      match gobDecodeFrom E fs1 fh with
      | none => (.error (.cerr "gob.Decode" .gob), (key.Hash E).2, fs1)
      | some data =>
        (.ok { key := (key.Hash E).2, f := tf, written := false, changed := false, h := [],
               cache := c, hash := [], data := data }, (key.Hash E).2, fs1)

/-- Source: `Cache.GetFile`. -/
def Cache.GetFile (E : Env) (c : Cache) (fs : FS) (src operation : GoString) :
    Except Error CacheFile × FS :=
  match c.loadFile E (newCacheFileKey src operation) fs with
  | (.ok cf, _, fs1) => (.ok cf, fs1)
  | (.error err, key, fs1) =>
    if !IsNotExist err then (.error (.cerr "loadFile" err), fs1)
    else
      match MkdirAll fs1 (Join c.root [lit "files"]) with
      | .error e => (.error (.cerr "os.MkdirAll" e), fs1)
      | .ok fs2 =>
        match TempFile fs2 (Join c.root [lit "files"]) tmpPattern with
        | .error e => (.error (.cerr "TempFile" e), fs2)
        | .ok (f, fs3) =>
          (.ok { key := key, f := f, written := false, changed := false, h := [],
                 cache := c, hash := [], data := [] }, fs3)

/-- Source: `CacheFile.Write`.  `io.MultiWriter` writes to the file first and
feeds the hash only when that succeeded. -/
def CacheFile.Write (f : CacheFile) (fs : FS) (p : List Byte) :
    (Nat × Option Error) × CacheFile × FS :=
  match File.Write fs f.f p with
  | .error e => ((0, some e), { f with written := true }, fs)
  | .ok fs1 => ((p.length, none), { f with written := true, h := f.h ++ p }, fs1)

/-- A sequence of `Write` calls, all of which succeed; `none` when one fails. -/
def CacheFile.WriteAll (f : CacheFile) (fs : FS) : List (List Byte) → Option (CacheFile × FS)
  | [] => some (f, fs)
  | p :: ps =>
    match f.Write fs p with
    | ((_, none), f1, fs1) => CacheFile.WriteAll f1 fs1 ps
    | ((_, some _), _, _) => none

/-- Source: `CacheFile.Hash`. -/
def CacheFile.Hash (f : CacheFile) : GoString := f.hash

/-- Source: `CacheFile.Close`. -/
def CacheFile.Close (E : Env) (f : CacheFile) (fs : FS) : Option Error × CacheFile × FS :=
  if !f.written then (none, f, fs)
  else if f.hash ≠ [] then (none, f, fs)
  else
    match File.Close f.f with
    | .error e => (some (.cerr "os.File.Close" e), { f with changed := true }, fs)
    | .ok file =>
      match Rename fs file.name (Join f.cache.root [lit "files", hexEncode (E.sha512 f.h)]) with
      | .error e =>
        (some (.cerr "os.Rename" e),
          { f with changed := true, f := file, hash := hexEncode (E.sha512 f.h) }, fs)
      | .ok fs1 =>
        match Chmod fs1 (Join f.cache.root [lit "files", hexEncode (E.sha512 f.h)]) 0o400 with
        | .error e =>
          (some (.cerr "os.Chmod" e),
            { f with changed := true, f := file, hash := hexEncode (E.sha512 f.h) }, fs1)
        | .ok fs2 =>
          (none,
            { f with changed := true, f := file, hash := hexEncode (E.sha512 f.h),
                     data := aset CacheData (.str (hexEncode (E.sha512 f.h))) f.data }, fs2)

/-- The publication step of `Install`: a hard link, or a symbolic link when the
hard link cannot be made. -/
def linkOrSymlink (fs : FS) (name path : Path) : Except Error FS :=
  match Link fs name path with
  | .ok fs1 => .ok fs1
  | .error _ => Symlink fs name path

/-- The branch `if f.changed` of `Install`: write the record to a temporary file
in the metadata directory and rename it to the fingerprint of the key. -/
def CacheFile.saveRecord (E : Env) (f : CacheFile) (fs : FS) : Option Error × CacheFile × FS :=
  match MkdirAll fs (Join f.cache.root [lit "metadata"]) with
  | .error e => (some (.cerr "os.MkdirAll" e), f, fs)
  | .ok fs1 =>
    match TempFile fs1 (Join f.cache.root [lit "metadata"]) tmpPattern with
    | .error e => (some (.cerr "TempFile" e), f, fs1)
    | .ok (w, fs2) =>
      match E.gobEncode f.data with
      | none => (some (.cerr "gob.Encode" .gob), f, fs2)
      | some bytes =>
        match File.Write fs2 w bytes with
        | .error _ => (some (.cerr "gob.Encode" .gob), f, fs2)
        | .ok fs3 =>
          match Rename fs3 w.name (Join f.cache.root [lit "metadata", (f.key.Hash E).1]) with
          | .error e => (some (.cerr "os.Rename" e), { f with key := (f.key.Hash E).2 }, fs3)
          | .ok fs4 => (none, { f with key := (f.key.Hash E).2 }, fs4)

/-- Source: `CacheFile.Install`.  The result is the returned error, or the panic
of the type assertion `hash.(string)`. -/
def CacheFile.Install (E : Env) (f : CacheFile) (fs : FS) (path : Path) :
    Except Panic (Option Error) × CacheFile × FS :=
  match f.Close E fs with
  | (some err, f1, fs1) => (.ok (some (.cerr "f.Close" err)), f1, fs1)
  | (none, f1, fs1) =>
    match alookup CacheData f1.data with
    | none => (.ok (some (.errorf "Failed to get hash")), f1, fs1)
    | some (.str hash) =>
      match linkOrSymlink fs1 (Join f1.cache.root [lit "files", hash]) path with
      | .error e => (.ok (some (.cerr "os.Symlink" e)), f1, fs1)
      | .ok fs2 =>
        if f1.changed then
          match f1.saveRecord E fs2 with
          | (r, f2, fs3) => (.ok r, f2, fs3)
        else (.ok none, f1, fs2)
    | some _ => (.error .typeAssertion, f1, fs1)

/-- Source: `CacheFile.Has`. -/
def CacheFile.Has (f : CacheFile) : List GoString → Bool
  | [] => true
  | n :: rest => if (alookup n f.data).isSome then CacheFile.Has f rest else false

/-- Source: `CacheFile.HasData`. -/
def CacheFile.HasData (f : CacheFile) : Bool := f.Has [CacheData]

/-- Source: `CacheFile.Store`.  Indexing `name[0]` panics on the empty string. -/
def CacheFile.Store (f : CacheFile) (name : GoString) (data : Value) :
    Option Panic × CacheFile :=
  match name with
  | [] => (some .indexOutOfRange, f)
  | c :: _ =>
    if c = 0x5F then (some (.privateMember name), f)
    else (none, { f with data := aset name data f.data })

/-- Source: `CacheFile.Get`: the nil interface for a missing field. -/
def CacheFile.Get (f : CacheFile) (name : GoString) : Value :=
  (alookup name f.data).getD .nil

/-- Source: `CacheFile.Lookup`. -/
def CacheFile.Lookup (f : CacheFile) (name : GoString) : Value × Bool :=
  match alookup name f.data with
  | some v => (v, true)
  | none => (.nil, false)

/-! ## The mock configuration (`lib/config.go`) -/

/-- Source: `type MockConfig struct`. -/
structure MockConfig where
  MockPrototypes : Bool
  IgnoreInits : Bool
  MatchOSArch : Bool
  IgnoreNonGoFiles : Bool
  MOCK : GoString
  EXPECT : GoString
  ObjEXPECT : GoString
deriving DecidableEq, Repr

/-- The zero value `&MockConfig{}`. -/
def MockConfig.zero : MockConfig :=
  { MockPrototypes := false, IgnoreInits := false, MatchOSArch := false,
    IgnoreNonGoFiles := false, MOCK := [], EXPECT := [], ObjEXPECT := [] }

/-- Source: `type Config struct`, with `Mocks map[string]*MockConfig`: an entry
of the map is a pointer, which may be nil (`none`). -/
structure Config where
  Mocks : List (GoString × Option MockConfig)
deriving DecidableEq, Repr

/-- The pointer `Mock` works with after a map lookup: the entry found, or
`&MockConfig{}` when there is none (`if !found`). -/
def entryOrZero : Option (Option MockConfig) → Option MockConfig
  | some e => e
  | none => some MockConfig.zero

/-- One `switch` of `Config.Mock`: the field of the configuration of the package
if it is not empty, else the field of the default configuration if it is not
empty, else the built-in name.  The cases are evaluated in order, and reading a
field through a nil pointer panics. -/
def pickName (mc dc : Option MockConfig) (field : MockConfig → GoString)
    (builtin : GoString) : Except Panic GoString :=
  match mc with
  | none => .error .nilDereference
  | some m =>
    if field m ≠ [] then .ok (field m)
    else
      match dc with
      | none => .error .nilDereference
      | some d => if field d ≠ [] then .ok (field d) else .ok builtin

/-- Source: `Config.Mock`.  The configuration `c` is only read. -/
def Config.Mock (c : Config) (path : GoString) : Except Panic MockConfig :=
  match pickName (entryOrZero (alookup path c.Mocks))
      (entryOrZero (alookup (lit "DEFAULT") c.Mocks)) (fun m => m.MOCK) (lit "MOCK") with
  | .error p => .error p
  | .ok mock =>
    match pickName (entryOrZero (alookup path c.Mocks))
        (entryOrZero (alookup (lit "DEFAULT") c.Mocks)) (fun m => m.EXPECT) (lit "EXPECT") with
    | .error p => .error p
    | .ok expect =>
      match pickName (entryOrZero (alookup path c.Mocks))
          (entryOrZero (alookup (lit "DEFAULT") c.Mocks)) (fun m => m.ObjEXPECT)
          (lit "EXPECT") with
      | .error p => .error p
      | .ok objExpect =>
        .ok { MockConfig.zero with MOCK := mock, EXPECT := expect, ObjEXPECT := objExpect }

/-! ## A concrete environment for evaluating the model -/

/-- A stand-in digest of the right size: the message, zero padded or cut to 64
bytes. -/
def toySum (m : List Byte) : List Byte := (m ++ List.replicate 64 0).take 64

/-- A stand-in encoding of one value. -/
def toyEncodeValue : Value → List Byte
  | .nil => [0]
  | .str s => 1 :: Fin.ofNat s.length :: s
  | .bool b => [2, if b then 1 else 0]
  | .obj t => [3, Fin.ofNat t]

/-- A stand-in record encoder: each field as its length-prefixed name followed
by its value. -/
def toyEncode : Record → List Byte
  | [] => []
  | (k, v) :: r => Fin.ofNat k.length :: (k ++ toyEncodeValue v ++ toyEncode r)

/-- The decoder for `toyEncode`, with the input length as fuel. -/
def toyDecode : Nat → List Byte → Option Record
  | _, [] => some []
  | 0, _ :: _ => none
  | fuel + 1, n :: t =>
    if t.length < n.val then none
    else
      match t.drop n.val with
      | 0 :: t1 => (toyDecode fuel t1).map fun r => (t.take n.val, .nil) :: r
      | 1 :: m :: t1 =>
        if t1.length < m.val then none
        else (toyDecode fuel (t1.drop m.val)).map fun r =>
          (t.take n.val, .str (t1.take m.val)) :: r
      | 2 :: b :: t1 => (toyDecode fuel t1).map fun r => (t.take n.val, .bool (b != 0)) :: r
      | 3 :: b :: t1 => (toyDecode fuel t1).map fun r => (t.take n.val, .obj b.val) :: r
      | _ => none

/-- The environment used to evaluate the model on concrete inputs. -/
def toyEnv : Env where
  sha512 := toySum
  sha512_size := by intro m; simp [toySum]
  gobEncode := fun r => some (toyEncode r)
  gobDecode := fun b => toyDecode b.length b

/-! ## Concrete inputs -/

/-- A cache rooted at `/cache`. -/
def exCache : Cache := { root := [lit "cache"] }

/-- A filesystem with the cache root, its `files` directory and an output
directory `/out`. -/
def exFS : FS :=
  { entries := [([lit "cache"], .dir), ([lit "cache", lit "files"], .dir), ([lit "out"], .dir)],
    inodes := [] }

/-- A filesystem with a cache root that has no `files` directory yet. -/
def exBare : FS := { entries := [([lit "cache"], .dir), ([lit "out"], .dir)], inodes := [] }

/-- An entry that belongs to no cache, the default of the projections below. -/
def CacheFile.zero : CacheFile :=
  { key := newCacheFileKey [] [], f := { name := [], ino := 0, closed := true },
    written := false, changed := false, h := [], cache := { root := [] }, hash := [],
    data := [] }

/-- The entry of a result of `GetFile`. -/
def entryOf (r : Except Error CacheFile × FS) : CacheFile :=
  match r.1 with
  | .ok f => f
  | .error _ => CacheFile.zero

/-- The call `GetFile("a.go", "mockFile")` on the first example filesystem: a miss. -/
def exGet : Except Error CacheFile × FS :=
  exCache.GetFile toyEnv exFS (lit "a.go") (lit "mockFile")

/-- The new entry after `Write("hello ")` and `Write("world")`. -/
def exWritten : CacheFile × FS :=
  ((entryOf exGet).WriteAll exGet.2 [lit "hello ", lit "world"]).getD (entryOf exGet, exGet.2)

/-- Then `Store("name", "pkg")` and `Install("/out/a.go")`. -/
def exInstalled : Except Panic (Option Error) × CacheFile × FS :=
  (exWritten.1.Store (lit "name") (.str (lit "pkg"))).2.Install toyEnv exWritten.2
    [lit "out", lit "a.go"]

/-- A later `GetFile("a.go", "mockFile")`: a hit. -/
def exHit : Except Error CacheFile × FS :=
  exCache.GetFile toyEnv exInstalled.2.2 (lit "a.go") (lit "mockFile")

/-- The first example filesystem with a directory in the place of the blob of
the content `"hello"`. -/
def exBlocked : FS :=
  { exFS with
    entries := (Join exCache.root [lit "files", hexEncode (toyEnv.sha512 (lit "hello"))], .dir)
      :: exFS.entries }

/-- The entry of the hit after `Store("ignore", true)`, with no `Write`. -/
def exStoredHit : CacheFile := ((entryOf exHit).Store (lit "ignore") (.bool true)).2

/-- Then `Install("/out/b.go")`. -/
def exReinstalled : Except Panic (Option Error) × CacheFile × FS :=
  exStoredHit.Install toyEnv exHit.2 [lit "out", lit "b.go"]

/-- A new entry on the blocked filesystem after `Write("hello")`. -/
def exBlockedWritten : CacheFile × FS :=
  ((entryOf (exCache.GetFile toyEnv exBlocked (lit "a.go") (lit "mockFile"))).WriteAll
      (exCache.GetFile toyEnv exBlocked (lit "a.go") (lit "mockFile")).2 [lit "hello"]).getD
    (CacheFile.zero, exBlocked)

/-- Then `Close`, whose rename fails. -/
def exFailedClose : Option Error × CacheFile × FS :=
  exBlockedWritten.1.Close toyEnv exBlockedWritten.2

/-- The first example filesystem with a `metadata` directory as well. -/
def exMeta : FS :=
  { exFS with entries := ([lit "cache", lit "metadata"], .dir) :: exFS.entries }

/-- The metadata path of the key `("a.go", "mockFile")` in the example cache. -/
def exMetaPath : Path :=
  Join exCache.root [lit "metadata", ((newCacheFileKey (lit "a.go") (lit "mockFile")).Hash toyEnv).1]

/-- The call `GetFile("a.go", "mockFile")` on that filesystem: a miss. -/
def exMetaGet : Except Error CacheFile × FS :=
  exCache.GetFile toyEnv exMeta (lit "a.go") (lit "mockFile")

/-- The new entry after `Write("hello")`. -/
def exMetaWritten : CacheFile × FS :=
  ((entryOf exMetaGet).WriteAll exMetaGet.2 [lit "hello"]).getD (entryOf exMetaGet, exMetaGet.2)

/-- Then `Store("name", "pkg")` and `Install` to the metadata path of the key
itself. -/
def exMetaInstalled : Except Panic (Option Error) × CacheFile × FS :=
  (exMetaWritten.1.Store (lit "name") (.str (lit "pkg"))).2.Install toyEnv exMetaWritten.2
    exMetaPath

/-- A configuration whose `DEFAULT` entry is the nil pointer, as read from a
YAML file that has the key `DEFAULT` with no value. -/
def exNilConfig : Config := { Mocks := [(lit "DEFAULT", none)] }

/-- A configuration with a default and one package, each naming some of the
three identifiers. -/
def exConfig : Config :=
  { Mocks :=
      [(lit "DEFAULT", some { MockConfig.zero with MOCK := lit "Mock", EXPECT := lit "Expect" }),
       (lit "net/http", some { MockConfig.zero with MOCK := lit "HTTPMOCK" })] }

/-! # Lemmas -/

/-! ## Association lists -/

theorem alookup_adel_self {α β : Type} [DecidableEq α] (k : α) (l : List (α × β)) :
    alookup k (adel k l) = none := by
  induction l with
  | nil => rfl
  | cons e l ih =>
    by_cases h : e.1 = k
    · simpa [adel, h] using ih
    · simpa [adel, h, alookup] using ih

theorem alookup_adel_ne {α β : Type} [DecidableEq α] (k k' : α) (l : List (α × β))
    (h : k' ≠ k) : alookup k' (adel k l) = alookup k' l := by
  induction l with
  | nil => rfl
  | cons e l ih =>
    by_cases h1 : e.1 = k
    · have h2 : e.1 ≠ k' := fun h3 => h (h3.symm.trans h1)
      simp only [adel, h1, if_true, alookup]
      rw [if_neg (by rw [← h1]; exact h2)]
      simpa [h1] using ih
    · by_cases h2 : e.1 = k'
      · rw [adel, if_neg h1, alookup, if_pos h2, alookup, if_pos h2]
      · simpa [adel, h1, alookup, h2] using ih

theorem alookup_aset_self {α β : Type} [DecidableEq α] (k : α) (v : β) (l : List (α × β)) :
    alookup k (aset k v l) = some v := by
  simp [aset, alookup]

theorem alookup_aset_ne {α β : Type} [DecidableEq α] (k k' : α) (v : β) (l : List (α × β))
    (h : k' ≠ k) : alookup k' (aset k v l) = alookup k' l := by
  simp [aset, alookup, Ne.symm h, alookup_adel_ne k k' l h]

theorem adel_length_le {α β : Type} [DecidableEq α] (k : α) (l : List (α × β)) :
    (adel k l).length ≤ l.length := by
  induction l with
  | nil => simp [adel]
  | cons e l ih =>
    by_cases h1 : e.1 = k
    · simp only [adel, h1, if_true, List.length_cons]; omega
    · simp only [adel, h1, if_false, List.length_cons]; omega

theorem adel_length_lt {α β : Type} [DecidableEq α] (k : α) (l : List (α × β))
    (h : (alookup k l).isSome = true) : (adel k l).length < l.length := by
  induction l with
  | nil => simp [alookup] at h
  | cons e l ih =>
    by_cases h1 : e.1 = k
    · have := adel_length_le k l
      simp only [adel, h1, if_true, List.length_cons]; omega
    · simp only [alookup, h1, if_false] at h
      have := ih h
      simp only [adel, h1, if_false, List.length_cons]; omega

/-! ## Directory entries and inodes -/

theorem node_nil (fs : FS) : fs.node [] = some .dir := by simp [FS.node]

theorem node_aset_self (es : List (Path × Node)) (ins : List (Nat × Inode)) (q : Path)
    (n : Node) (hq : q ≠ []) :
    FS.node { entries := aset q n es, inodes := ins } q = some n := by
  simp [FS.node, hq, alookup_aset_self]

theorem node_aset_ne (es : List (Path × Node)) (ins ins' : List (Nat × Inode)) (p q : Path)
    (n : Node) (h : p ≠ q) :
    FS.node { entries := aset q n es, inodes := ins } p
      = FS.node { entries := es, inodes := ins' } p := by
  simp [FS.node, alookup_aset_ne q p n es h]

theorem node_adel_ne (es : List (Path × Node)) (ins ins' : List (Nat × Inode)) (p q : Path)
    (h : p ≠ q) :
    FS.node { entries := adel q es, inodes := ins } p
      = FS.node { entries := es, inodes := ins' } p := by
  simp [FS.node, alookup_adel_ne q p es h]

theorem node_entries (fs fs' : FS) (h : fs'.entries = fs.entries) (p : Path) :
    fs'.node p = fs.node p := by
  simp [FS.node, h]

theorem inode_inodes (fs fs' : FS) (h : fs'.inodes = fs.inodes) (i : Nat) :
    fs'.inode i = fs.inode i := by
  simp [FS.inode, h]

theorem inode_aset_self (es : List (Path × Node)) (ins : List (Nat × Inode)) (i : Nat)
    (v : Inode) : FS.inode { entries := es, inodes := aset i v ins } i = v := by
  simp [FS.inode, alookup_aset_self]

theorem inode_aset_ne (es es' : List (Path × Node)) (ins : List (Nat × Inode)) (i j : Nat)
    (v : Inode) (h : j ≠ i) :
    FS.inode { entries := es, inodes := aset i v ins } j
      = FS.inode { entries := es', inodes := ins } j := by
  simp [FS.inode, alookup_aset_ne i j v ins h]

theorem resolve_entries (fs fs' : FS) (h : fs'.entries = fs.entries) (fuel : Nat) (p : Path) :
    fs'.resolve fuel p = fs.resolve fuel p := by
  induction fuel generalizing p with
  | zero => rfl
  | succ fuel ih =>
    simp only [FS.resolve, node_entries fs fs' h]
    cases fs.node p with
    | none => rfl
    | some n => cases n <;> simp [ih]

/-! ## Fresh names and inode numbers -/

theorem tmpName_inj (pat : GoString) (m n : Nat) (h : tmpName pat m = tmpName pat n) :
    m = n := by
  have := congrArg List.length h
  simpa [tmpName] using this

theorem firstFree_ge (fs : FS) (dir : Path) (pat : GoString) (fuel n : Nat) :
    n ≤ firstFree fs dir pat fuel n := by
  induction fuel generalizing n with
  | zero => simp [firstFree]
  | succ fuel ih =>
    simp only [firstFree]
    split
    · exact Nat.le_trans (Nat.le_succ n) (ih (n + 1))
    · exact Nat.le_refl n

theorem firstFree_congr (fs fs' : FS) (dir : Path) (pat : GoString) (fuel n : Nat)
    (h : ∀ m, n ≤ m → fs'.node (dir ++ [tmpName pat m]) = fs.node (dir ++ [tmpName pat m])) :
    firstFree fs' dir pat fuel n = firstFree fs dir pat fuel n := by
  induction fuel generalizing n with
  | zero => simp [firstFree]
  | succ fuel ih =>
    simp only [firstFree, h n (Nat.le_refl n)]
    rw [ih (n + 1) (fun m hm => h m (Nat.le_of_succ_le hm))]

theorem firstFree_free (dir : Path) (pat : GoString) (fuel : Nat) :
    ∀ (fs : FS) (n : Nat), fs.entries.length ≤ fuel →
      fs.node (dir ++ [tmpName pat (firstFree fs dir pat fuel n)]) = none := by
  induction fuel with
  | zero =>
    intro fs n hl
    have : fs.entries = [] := List.length_eq_zero.mp (Nat.le_zero.mp hl)
    simp [firstFree, FS.node, this, alookup]
  | succ fuel ih =>
    intro fs n hl
    simp only [firstFree]
    by_cases hu : (fs.node (dir ++ [tmpName pat n])).isSome = true
    · simp only [hu, if_true]
      have hne : dir ++ [tmpName pat n] ≠ [] := by simp
      have hu' : (alookup (dir ++ [tmpName pat n]) fs.entries).isSome = true := by
        simpa [FS.node, hne] using hu
      have hlen := adel_length_lt _ _ hu'
      have hagree : ∀ m, n + 1 ≤ m →
          FS.node { entries := adel (dir ++ [tmpName pat n]) fs.entries, inodes := fs.inodes }
              (dir ++ [tmpName pat m])
            = fs.node (dir ++ [tmpName pat m]) := by
        intro m hm
        apply node_adel_ne
        intro he
        have := tmpName_inj pat m n (by simpa using he)
        omega
      have h1 := ih { entries := adel (dir ++ [tmpName pat n]) fs.entries, inodes := fs.inodes }
        (n + 1) (by simp only; omega)
      rw [firstFree_congr fs _ dir pat fuel (n + 1) hagree] at h1
      rw [← hagree _ (firstFree_ge fs dir pat fuel (n + 1))]
      exact h1
    · simp only [hu]
      simpa using hu

theorem inoBound_gt (es : List (Path × Node)) (p : Path) (i : Nat)
    (h : alookup p es = some (.file i)) : i < inoBound es := by
  induction es with
  | nil => simp [alookup] at h
  | cons e es ih =>
    simp only [alookup] at h
    by_cases he : e.1 = p
    · simp only [he, if_true, Option.some.injEq] at h
      simp only [inoBound, h]
      omega
    · simp only [he, if_false] at h
      have := ih h
      simp only [inoBound]
      split <;> omega

theorem ino_lt_freshIno (fs : FS) (p : Path) (i : Nat) (h : fs.node p = some (.file i)) :
    i < fs.freshIno := by
  have hp : p ≠ [] := by
    intro hp; simp [FS.node, hp] at h
  have h' : alookup p fs.entries = some (.file i) := by simpa [FS.node, hp] using h
  have := inoBound_gt fs.entries p i h'
  simp only [FS.freshIno]
  omega

/-! ## The system calls -/

theorem TempFile_ok {fs fs' : FS} {dir : Path} {pat : GoString} {w : File}
    (h : TempFile fs dir pat = .ok (w, fs')) :
    fs.node dir = some .dir ∧ w.closed = false ∧ w.name ≠ [] ∧ fs.node w.name = none
      ∧ w.ino = fs.freshIno
      ∧ fs'.entries = aset w.name (.file w.ino) fs.entries
      ∧ fs'.inodes = aset w.ino { data := [], mode := 0o600 } fs.inodes := by
  unfold TempFile at h
  split at h
  · simp at h
  · rename_i hd
    split at h
    · simp at h
    · rename_i hfree
      simp only [Except.ok.injEq, Prod.mk.injEq] at h
      obtain ⟨rfl, rfl⟩ := h
      refine ⟨hd, rfl, by simp [tmpPath], ?_, rfl, rfl, rfl⟩
      simpa using hfree
  · simp at h

theorem TempFile_succeeds (fs : FS) (dir : Path) (pat : GoString)
    (hd : fs.node dir = some .dir) : ∃ w fs', TempFile fs dir pat = .ok (w, fs') := by
  unfold TempFile
  simp only [hd, tmpPath, firstFree_free dir pat fs.entries.length fs 0 (Nat.le_refl _)]
  exact ⟨_, _, rfl⟩

theorem TempFile_node_self {fs fs' : FS} {dir : Path} {pat : GoString} {w : File}
    (h : TempFile fs dir pat = .ok (w, fs')) : fs'.node w.name = some (.file w.ino) := by
  obtain ⟨_, _, hne, _, _, he, _⟩ := TempFile_ok h
  simp [FS.node, he, hne, alookup_aset_self]

theorem TempFile_node_other {fs fs' : FS} {dir : Path} {pat : GoString} {w : File}
    (h : TempFile fs dir pat = .ok (w, fs')) (p : Path) (hp : p ≠ w.name) :
    fs'.node p = fs.node p := by
  obtain ⟨_, _, _, _, _, he, _⟩ := TempFile_ok h
  simp [FS.node, he, alookup_aset_ne _ _ _ _ hp]

theorem TempFile_node_keep {fs fs' : FS} {dir : Path} {pat : GoString} {w : File}
    (h : TempFile fs dir pat = .ok (w, fs')) (p : Path) (n : Node) (hp : fs.node p = some n) :
    fs'.node p = some n := by
  have hne : p ≠ w.name := by
    intro e
    have := (TempFile_ok h).2.2.2.1
    rw [← e, hp] at this
    exact Option.noConfusion this
  rw [TempFile_node_other h p hne, hp]

theorem TempFile_inode_self {fs fs' : FS} {dir : Path} {pat : GoString} {w : File}
    (h : TempFile fs dir pat = .ok (w, fs')) :
    fs'.inode w.ino = { data := [], mode := 0o600 } := by
  obtain ⟨_, _, _, _, _, _, hi⟩ := TempFile_ok h
  simp [FS.inode, hi, alookup_aset_self]

theorem TempFile_inode_other {fs fs' : FS} {dir : Path} {pat : GoString} {w : File}
    (h : TempFile fs dir pat = .ok (w, fs')) (i : Nat) (hi : i ≠ w.ino) :
    fs'.inode i = fs.inode i := by
  obtain ⟨_, _, _, _, _, _, he⟩ := TempFile_ok h
  simp [FS.inode, he, alookup_aset_ne _ _ _ _ hi]

theorem TempFile_inode_keep {fs fs' : FS} {dir : Path} {pat : GoString} {w : File}
    (h : TempFile fs dir pat = .ok (w, fs')) (p : Path) (i : Nat)
    (hp : fs.node p = some (.file i)) : fs'.inode i = fs.inode i ∧ i ≠ w.ino := by
  have hlt := ino_lt_freshIno fs p i hp
  have hw := (TempFile_ok h).2.2.2.2.1
  have hne : i ≠ w.ino := by omega
  exact ⟨TempFile_inode_other h i hne, hne⟩

theorem MkdirAllFrom_ok (rest : List GoString) : ∀ (fs fs' : FS) (done : Path),
    MkdirAllFrom fs done rest = .ok fs' →
      fs'.inodes = fs.inodes ∧ (∀ p n, fs.node p = some n → fs'.node p = some n) := by
  induction rest with
  | nil =>
    intro fs fs' done h
    simp only [MkdirAllFrom, Except.ok.injEq] at h
    subst h
    exact ⟨rfl, fun _ _ h => h⟩
  | cons c rest ih =>
    intro fs fs' done h
    simp only [MkdirAllFrom] at h
    split at h
    · exact ih _ _ _ h
    · simp at h
    · rename_i hnone
      obtain ⟨hi, hn⟩ := ih _ _ _ h
      refine ⟨hi, fun p n hp => hn p n ?_⟩
      have hne : p ≠ done ++ [c] := by
        intro e; rw [e, hnone] at hp; exact Option.noConfusion hp
      rw [← hp]
      exact node_aset_ne fs.entries fs.inodes fs.inodes p (done ++ [c]) .dir hne

theorem MkdirAll_ok {fs fs' : FS} {p : Path} (h : MkdirAll fs p = .ok fs') :
    fs'.inodes = fs.inodes ∧ (∀ q n, fs.node q = some n → fs'.node q = some n) :=
  MkdirAllFrom_ok p fs fs' [] h

theorem FileWrite_ok {fs fs' : FS} {w : File} {p : List Byte}
    (h : File.Write fs w p = .ok fs') :
    w.closed = false ∧ fs'.entries = fs.entries
      ∧ fs'.inodes
        = aset w.ino { fs.inode w.ino with data := (fs.inode w.ino).data ++ p } fs.inodes := by
  unfold File.Write at h
  split at h
  · simp at h
  · rename_i hc
    simp only [Except.ok.injEq] at h
    subst h
    exact ⟨by simpa using hc, rfl, rfl⟩

theorem FileWrite_open (fs : FS) (w : File) (p : List Byte) (hc : w.closed = false) :
    File.Write fs w p = .ok { fs with
      inodes := aset w.ino { fs.inode w.ino with data := (fs.inode w.ino).data ++ p }
        fs.inodes } := by
  simp [File.Write, hc]

theorem Rename_file {fs fs' : FS} {old new : Path} {i : Nat}
    (ho : fs.node old = some (.file i)) (h : Rename fs old new = .ok fs') :
    fs'.inodes = fs.inodes ∧ fs'.node new = some (.file i)
      ∧ (∀ p, p ≠ old → p ≠ new → fs'.node p = fs.node p)
      ∧ (∀ p n, fs.node p = some n → p ≠ old → (fs'.node p).isSome = true)
      ∧ (∀ p, fs.node p = some .dir → fs'.node p = some .dir) := by
  have hmove : new ≠ [] → fs.node new ≠ some .dir →
      fs' = { fs with entries := aset new (.file i) (adel old fs.entries) } →
      fs'.inodes = fs.inodes ∧ fs'.node new = some (.file i)
      ∧ (∀ p, p ≠ old → p ≠ new → fs'.node p = fs.node p)
      ∧ (∀ p n, fs.node p = some n → p ≠ old → (fs'.node p).isSome = true)
      ∧ (∀ p, fs.node p = some .dir → fs'.node p = some .dir) := by
    intro hnew hnd e
    subst e
    have hother : ∀ p, p ≠ old → p ≠ new →
        FS.node { fs with entries := aset new (.file i) (adel old fs.entries) } p
          = fs.node p := by
      intro p hpo hpn
      rw [node_aset_ne _ _ fs.inodes p new _ hpn, node_adel_ne _ _ fs.inodes p old hpo]
    refine ⟨rfl, node_aset_self _ _ _ _ hnew, hother, ?_, ?_⟩
    · intro p n hp hpo
      by_cases hpn : p = new
      · rw [hpn, node_aset_self _ _ _ _ hnew]; rfl
      · rw [hother p hpo hpn, hp]; rfl
    · intro p hp
      have hpo : p ≠ old := by
        intro e; rw [e, ho] at hp; simp at hp
      have hpn : p ≠ new := by
        intro e; rw [e] at hp; exact hnd hp
      rw [hother p hpo hpn, hp]
  have hsame : fs' = fs → fs.node new = some (.file i) →
      fs'.inodes = fs.inodes ∧ fs'.node new = some (.file i)
      ∧ (∀ p, p ≠ old → p ≠ new → fs'.node p = fs.node p)
      ∧ (∀ p n, fs.node p = some n → p ≠ old → (fs'.node p).isSome = true)
      ∧ (∀ p, fs.node p = some .dir → fs'.node p = some .dir) := by
    intro e hn
    subst e
    exact ⟨rfl, hn, fun _ _ _ => rfl, fun p n hp _ => by simp [hp], fun _ hp => hp⟩
  have hold : old ≠ [] := by
    intro e; rw [e, node_nil] at ho; simp at ho
  unfold Rename at h
  simp only [ho] at h
  by_cases hd : fs.node new = some .dir
  · simp [hd] at h
  · rw [if_neg hd] at h
    have hnew : new ≠ [] := by
      intro e; rw [e, node_nil] at hd; exact hd rfl
    by_cases hon : old = new
    · simp only [hon, if_true, Except.ok.injEq] at h
      exact hsame h.symm (by rw [← hon]; exact ho)
    · rw [if_neg hon, if_neg hold] at h
      cases hpe : fs.parentErr new with
      | some e => simp [hpe] at h
      | none =>
        simp only [hpe, reduceCtorEq, if_false] at h
        cases hm : fs.node new with
        | none =>
          simp only [hm, Except.ok.injEq] at h
          exact hmove hnew hd h.symm
        | some m =>
          cases m with
          | dir => exact absurd hm hd
          | file j =>
            simp only [hm, Node.isFile, and_true] at h
            by_cases hij : Node.file i = Node.file j
            · simp only [hij, if_true, Except.ok.injEq] at h
              exact hsame h.symm (by rw [hm, hij])
            · simp only [hij, if_false, Except.ok.injEq] at h
              exact hmove hnew hd h.symm
          | symlink t =>
            simp only [hm, reduceCtorEq, false_and, if_false, Except.ok.injEq] at h
            exact hmove hnew hd h.symm

/-- The check `os.Rename` makes before the system call: an existing directory
as the new name is refused with `EEXIST` whenever the source exists. -/
theorem Rename_onto_directory (fs : FS) (old new : Path) (n : Node)
    (ho : fs.node old = some n) (hd : fs.node new = some .dir) :
    Rename fs old new = .error (.sys "rename" .EEXIST) := by
  simp [Rename, ho, hd]

theorem resolve_file (fs : FS) (fuel : Nat) (p : Path) (i : Nat)
    (h : fs.node p = some (.file i)) : fs.resolve (fuel + 1) p = .ok (.file i) := by
  simp [FS.resolve, h]

theorem Chmod_ok {fs fs' : FS} {p : Path} {m : Nat} (h : Chmod fs p m = .ok fs') :
    fs'.entries = fs.entries ∧ (∀ i, (fs'.inode i).data = (fs.inode i).data) := by
  unfold Chmod at h
  cases hr : fs.resolve 40 p with
  | error e => simp [hr] at h
  | ok n =>
    cases n with
    | dir =>
      simp only [hr, Except.ok.injEq] at h
      subst h; exact ⟨rfl, fun _ => rfl⟩
    | symlink t =>
      simp only [hr, Except.ok.injEq] at h
      subst h; exact ⟨rfl, fun _ => rfl⟩
    | file j =>
      simp only [hr, Except.ok.injEq] at h
      subst h
      refine ⟨rfl, fun i => ?_⟩
      by_cases hij : i = j
      · subst hij
        rw [inode_aset_self]
      · rw [inode_aset_ne fs.entries fs.entries fs.inodes j i _ hij]

theorem Link_ok {fs fs' : FS} {old new : Path} (h : Link fs old new = .ok fs') :
    fs.node new = none ∧ new ≠ [] ∧ fs'.inodes = fs.inodes
      ∧ ∃ n, fs.node old = some n ∧ fs'.entries = aset new n fs.entries := by
  unfold Link at h
  cases ho : fs.node old with
  | none => simp [ho] at h
  | some n =>
    have hgen : (if (fs.node new).isSome = true
        then (Except.error (Error.sys "link" Errno.EEXIST) : Except Error FS)
        else match fs.parentErr new with
          | some e => Except.error (Error.sys "link" e)
          | none => Except.ok { fs with entries := aset new n fs.entries }) = .ok fs' →
        fs.node new = none ∧ new ≠ [] ∧ fs'.inodes = fs.inodes
          ∧ ∃ n', some n = some n' ∧ fs'.entries = aset new n' fs.entries := by
      intro h
      by_cases hn : (fs.node new).isSome = true
      · simp [hn] at h
      · rw [if_neg hn] at h
        cases hp : fs.parentErr new with
        | some e => simp [hp] at h
        | none =>
          simp only [hp, Except.ok.injEq] at h
          subst h
          have hnone : fs.node new = none := by simpa using hn
          refine ⟨hnone, ?_, rfl, n, rfl, rfl⟩
          intro e; rw [e, node_nil] at hnone; simp at hnone
    cases n with
    | dir => simp [ho] at h
    | file j => simp only [ho] at h; exact hgen h
    | symlink t => simp only [ho] at h; exact hgen h

theorem Symlink_ok {fs fs' : FS} {target new : Path} (h : Symlink fs target new = .ok fs') :
    fs.node new = none ∧ new ≠ [] ∧ fs'.inodes = fs.inodes
      ∧ fs'.entries = aset new (.symlink target) fs.entries := by
  unfold Symlink at h
  by_cases hn : (fs.node new).isSome = true
  · simp [hn] at h
  · rw [if_neg hn] at h
    cases hp : fs.parentErr new with
    | some e => simp [hp] at h
    | none =>
      simp only [hp, Except.ok.injEq] at h
      subst h
      have hnone : fs.node new = none := by simpa using hn
      refine ⟨hnone, ?_, rfl, rfl⟩
      intro e; rw [e, node_nil] at hnone; simp at hnone

theorem linkOrSymlink_ok {fs fs' : FS} {name path : Path}
    (h : linkOrSymlink fs name path = .ok fs') :
    fs.node path = none ∧ path ≠ [] ∧ fs'.inodes = fs.inodes
      ∧ ∃ n, (fs.node name = some n ∨ n = .symlink name)
          ∧ fs'.entries = aset path n fs.entries := by
  unfold linkOrSymlink at h
  cases hl : Link fs name path with
  | ok fs1 =>
    simp only [hl, Except.ok.injEq] at h
    subst h
    obtain ⟨h1, h2, h3, n, h4, h5⟩ := Link_ok hl
    exact ⟨h1, h2, h3, n, Or.inl h4, h5⟩
  | error e =>
    simp only [hl] at h
    obtain ⟨h1, h2, h3, h4⟩ := Symlink_ok h
    exact ⟨h1, h2, h3, _, Or.inr rfl, h4⟩

theorem linkOrSymlink_exists (fs : FS) (name path : Path) (h : (fs.node path).isSome = true) :
    ∃ e, linkOrSymlink fs name path = .error e := by
  unfold linkOrSymlink
  have hs : Symlink fs name path = .error (.sys "symlink" .EEXIST) := by
    simp [Symlink, h]
  cases hl : Link fs name path with
  | ok fs1 =>
    have := (Link_ok hl).1
    rw [this] at h; simp at h
  | error e => exact ⟨_, hs⟩

theorem linkOrSymlink_keep {fs fs' : FS} {name path : Path}
    (h : linkOrSymlink fs name path = .ok fs') (p : Path) (n : Node)
    (hp : fs.node p = some n) : fs'.node p = some n := by
  obtain ⟨h1, _, _, m, _, h5⟩ := linkOrSymlink_ok h
  have hne : p ≠ path := by
    intro e; rw [e, h1] at hp; simp at hp
  simp [FS.node, h5, alookup_aset_ne _ _ _ _ hne]
  simpa [FS.node] using hp

theorem linkOrSymlink_content {fs fs' : FS} {name path : Path} {i : Nat}
    (h : linkOrSymlink fs name path = .ok fs') (hn : fs.node name = some (.file i)) :
    fs'.node path = some (.file i)
      ∨ (fs'.node path = some (.symlink name) ∧ fs'.node name = some (.file i)) := by
  obtain ⟨h1, h2, _, m, hm, h5⟩ := linkOrSymlink_ok h
  have hself : fs'.node path = some m := by
    simp [FS.node, h5, h2, alookup_aset_self]
  rcases hm with hm | hm
  · rw [hn] at hm
    simp only [Option.some.injEq] at hm
    left; rw [hself, hm]
  · right
    exact ⟨by rw [hself, hm], linkOrSymlink_keep h name _ hn⟩

theorem content_of_file (fs : FS) (p : Path) (i : Nat) (h : fs.node p = some (.file i)) :
    fs.content p = some (fs.inode i).data := by
  simp [FS.content, FS.resolve, h]

theorem content_of_symlink (fs : FS) (p t : Path) (i : Nat)
    (h : fs.node p = some (.symlink t)) (ht : fs.node t = some (.file i)) :
    fs.content p = some (fs.inode i).data := by
  simp [FS.content, FS.resolve, h, ht]

/-! ## The cache entry -/

theorem hexEncode_ne_nil (E : Env) (m : List Byte) : hexEncode (E.sha512 m) ≠ [] := by
  have h := E.sha512_size m
  cases hs : E.sha512 m with
  | nil => rw [hs] at h; simp at h
  | cons b bs => simp [hexEncode]

theorem loadFile_ok {E : Env} {c : Cache} {key key' : cacheFileKey} {fs fs' : FS}
    {cf : CacheFile} (h : c.loadFile E key fs = (.ok cf, key', fs')) :
    ∃ tf fh, TempFile fs (Join c.root [lit "files"]) tmpPattern = .ok (tf, fs')
      ∧ Open fs' (Join c.root [lit "metadata", (key.Hash E).1]) = .ok fh
      ∧ gobDecodeFrom E fs' fh = some cf.data
      ∧ cf = { key := (key.Hash E).2, f := tf, written := false, changed := false, h := [],
               cache := c, hash := [], data := cf.data } := by
  unfold Cache.loadFile at h
  cases ht : TempFile fs (Join c.root [lit "files"]) tmpPattern with
  | error e => simp [ht] at h
  | ok r =>
    obtain ⟨tf, fs1⟩ := r
    simp only [ht] at h
    cases ho : Open fs1 (Join c.root [lit "metadata", (key.Hash E).1]) with
    | error e => simp [ho] at h
    | ok fh =>
      simp only [ho] at h
      cases hd : gobDecodeFrom E fs1 fh with
      | none => simp [hd] at h
      | some data =>
        simp only [hd, Prod.mk.injEq, Except.ok.injEq] at h
        obtain ⟨rfl, _, rfl⟩ := h
        exact ⟨tf, fh, rfl, ho, hd, rfl⟩

theorem loadFile_notExist {E : Env} {c : Cache} {key key' : cacheFileKey} {fs fs' : FS}
    {e : Error} (h : c.loadFile E key fs = (.error e, key', fs'))
    (hne : IsNotExist e = true) :
    ∃ tf, TempFile fs (Join c.root [lit "files"]) tmpPattern = .ok (tf, fs')
      ∧ key' = (key.Hash E).2 := by
  unfold Cache.loadFile at h
  cases ht : TempFile fs (Join c.root [lit "files"]) tmpPattern with
  | error e1 =>
    simp only [ht, Prod.mk.injEq, Except.error.injEq] at h
    obtain ⟨rfl, _, _⟩ := h
    simp [IsNotExist] at hne
  | ok r =>
    obtain ⟨tf, fs1⟩ := r
    simp only [ht] at h
    cases ho : Open fs1 (Join c.root [lit "metadata", (key.Hash E).1]) with
    | error e1 =>
      simp only [ho, Prod.mk.injEq, Except.error.injEq] at h
      obtain ⟨_, rfl, rfl⟩ := h
      exact ⟨tf, rfl, rfl⟩
    | ok fh =>
      simp only [ho] at h
      cases hd : gobDecodeFrom E fs1 fh with
      | none =>
        simp only [hd, Prod.mk.injEq, Except.error.injEq] at h
        obtain ⟨rfl, _, _⟩ := h
        simp [IsNotExist] at hne
      | some data => simp [hd] at h

/-- What every entry returned by `GetFile` looks like: fresh flags, an open and
empty temporary file, the cache it belongs to, and the key with its fingerprint
cached. -/
theorem GetFile_ok {E : Env} {c : Cache} {fs fs1 : FS} {src op : GoString} {f : CacheFile}
    (h : c.GetFile E fs src op = (.ok f, fs1)) :
    f.written = false ∧ f.changed = false ∧ f.hash = [] ∧ f.h = [] ∧ f.cache = c
      ∧ f.f.closed = false ∧ f.key = ((newCacheFileKey src op).Hash E).2
      ∧ fs1.node f.f.name = some (.file f.f.ino) ∧ (fs1.inode f.f.ino).data = []
      ∧ fs1.node (Join c.root [lit "files"]) = some .dir := by
  unfold Cache.GetFile at h
  cases hl : c.loadFile E (newCacheFileKey src op) fs with
  | mk r rest =>
    obtain ⟨key', fs'⟩ := rest
    cases r with
    | ok cf =>
      simp only [hl, Prod.mk.injEq, Except.ok.injEq] at h
      obtain ⟨rfl, rfl⟩ := h
      obtain ⟨tf, fh, ht, _, _, hcf⟩ := loadFile_ok hl
      rw [hcf]
      refine ⟨rfl, rfl, rfl, rfl, rfl, (TempFile_ok ht).2.1, rfl, TempFile_node_self ht, ?_, ?_⟩
      · rw [TempFile_inode_self ht]
      · exact TempFile_node_keep ht _ _ (TempFile_ok ht).1
    | error e =>
      simp only [hl] at h
      by_cases hne : IsNotExist e = true
      · simp only [hne, Bool.not_true, Bool.false_eq_true, if_false] at h
        obtain ⟨tf, ht, hk⟩ := loadFile_notExist hl hne
        cases hm : MkdirAll fs' (Join c.root [lit "files"]) with
        | error e1 => simp [hm] at h
        | ok fs2 =>
          simp only [hm] at h
          cases ht2 : TempFile fs2 (Join c.root [lit "files"]) tmpPattern with
          | error e1 => simp [ht2] at h
          | ok r2 =>
            obtain ⟨w, fs3⟩ := r2
            simp only [ht2, Prod.mk.injEq, Except.ok.injEq] at h
            obtain ⟨rfl, rfl⟩ := h
            refine ⟨rfl, rfl, rfl, rfl, rfl, (TempFile_ok ht2).2.1, hk, TempFile_node_self ht2,
              ?_, ?_⟩
            · rw [TempFile_inode_self ht2]
            · exact TempFile_node_keep ht2 _ _ (TempFile_ok ht2).1
      · simp [hne] at h

theorem Write_open (f : CacheFile) (fs : FS) (p : List Byte) (hc : f.f.closed = false) :
    f.Write fs p = ((p.length, none), { f with written := true, h := f.h ++ p },
      { fs with inodes := (aset f.f.ino
          { fs.inode f.f.ino with data := (fs.inode f.f.ino).data ++ p } fs.inodes) }) := by
  simp [CacheFile.Write, FileWrite_open fs f.f p hc]

/-- The state of an entry while it is being written to: a successful sequence of
`Write` calls appends the bytes to the temporary file and to the hash input,
sets `written` once there is a call, and changes nothing else. -/
theorem WriteAll_ok (ps : List (List Byte)) : ∀ (f f2 : CacheFile) (fs fs2 : FS),
    f.f.closed = false → f.WriteAll fs ps = some (f2, fs2) →
      f2 = { f with written := f.written || !ps.isEmpty, h := f.h ++ ps.flatten }
        ∧ fs2.entries = fs.entries
        ∧ (fs2.inode f.f.ino).data = (fs.inode f.f.ino).data ++ ps.flatten
        ∧ (∀ i, i ≠ f.f.ino → fs2.inode i = fs.inode i) := by
  induction ps with
  | nil =>
    intro f f2 fs fs2 _ h
    simp only [CacheFile.WriteAll, Option.some.injEq, Prod.mk.injEq] at h
    obtain ⟨rfl, rfl⟩ := h
    simp
  | cons p ps ih =>
    intro f f2 fs fs2 hc h
    simp only [CacheFile.WriteAll, Write_open f fs p hc] at h
    obtain ⟨h1, h2, h3, h4⟩ := ih _ _ _ _ (by simpa using hc) h
    refine ⟨?_, ?_, ?_, ?_⟩
    · rw [h1]; simp [List.append_assoc]
    · rw [h2]
    · rw [h3]
      simp only [inode_aset_self, List.flatten_cons, List.append_assoc]
    · intro i hi
      rw [h4 i hi]
      exact inode_aset_ne fs.entries fs.entries fs.inodes f.f.ino i _ hi

/-- The full path through `Close`: an entry that has been written to and not yet
closed, on a successful return. -/
theorem Close_full {E : Env} {f f3 : CacheFile} {fs fs3 : FS} {i : Nat}
    (hw : f.written = true) (hh : f.hash = [])
    (hn : fs.node f.f.name = some (.file i))
    (h : f.Close E fs = (none, f3, fs3)) :
    f3 = { f with changed := true, f := { f.f with closed := true },
                  hash := hexEncode (E.sha512 f.h),
                  data := aset CacheData (.str (hexEncode (E.sha512 f.h))) f.data }
      ∧ fs3.node (Join f.cache.root [lit "files", hexEncode (E.sha512 f.h)]) = some (.file i)
      ∧ (∀ j, (fs3.inode j).data = (fs.inode j).data)
      ∧ (∀ p, fs.node p = some .dir → fs3.node p = some .dir)
      ∧ (∀ p n, fs.node p = some n → p ≠ f.f.name → (fs3.node p).isSome = true) := by
  unfold CacheFile.Close at h
  simp only [hw, hh, Bool.not_true, Bool.false_eq_true, if_false, ne_eq, not_true_eq_false]
    at h
  by_cases hc : f.f.closed = true
  · simp [File.Close, hc] at h
  · rw [File.Close, if_neg hc] at h
    simp only at h
    cases hr : Rename fs f.f.name (Join f.cache.root [lit "files", hexEncode (E.sha512 f.h)])
      with
    | error e => simp [hr] at h
    | ok fs1 =>
      simp only [hr] at h
      cases hm : Chmod fs1 (Join f.cache.root [lit "files", hexEncode (E.sha512 f.h)]) 0o400
        with
      | error e => simp [hm] at h
      | ok fs2 =>
        simp only [hm, Prod.mk.injEq, true_and] at h
        obtain ⟨rfl, rfl⟩ := h
        obtain ⟨r1, r2, _, r4, r5⟩ := Rename_file hn hr
        obtain ⟨c1, c2⟩ := Chmod_ok hm
        refine ⟨by simp [hw], ?_, ?_, ?_, ?_⟩
        · rw [node_entries fs1 _ c1]; exact r2
        · intro j; rw [c2 j, inode_inodes fs fs1 r1]
        · intro p hp; rw [node_entries fs1 _ c1]; exact r5 p hp
        · intro p n hp hpn; rw [node_entries fs1 _ c1]; exact r4 p n hp hpn

/-- After a `Close` that returned nil the entry is closed for good: it was never
written to, or its hash is set. -/
theorem Close_result {E : Env} {f g : CacheFile} {fs gs : FS}
    (h : f.Close E fs = (none, g, gs)) : g.written = false ∨ g.hash ≠ [] := by
  unfold CacheFile.Close at h
  by_cases hw : f.written = true
  · simp only [hw, Bool.not_true, Bool.false_eq_true, if_false] at h
    by_cases hh : f.hash = []
    · simp only [hh, ne_eq, not_true_eq_false, if_false] at h
      right
      cases hc : File.Close f.f with
      | error e => simp [hc] at h
      | ok file =>
        simp only [hc] at h
        cases hr : Rename fs file.name
            (Join f.cache.root [lit "files", hexEncode (E.sha512 f.h)]) with
        | error e => simp [hr] at h
        | ok fs2 =>
          simp only [hr] at h
          cases hm : Chmod fs2 (Join f.cache.root [lit "files", hexEncode (E.sha512 f.h)])
              0o400 with
          | error e => simp [hm] at h
          | ok fs3 =>
            simp only [hm, Prod.mk.injEq, true_and] at h
            obtain ⟨rfl, _⟩ := h
            exact hexEncode_ne_nil E f.h
    · simp only [ne_eq, hh, not_false_eq_true, if_true, Prod.mk.injEq, true_and] at h
      obtain ⟨rfl, _⟩ := h
      exact Or.inr hh
  · have hw' : f.written = false := by simpa using hw
    simp only [hw', Bool.not_false, if_true, Prod.mk.injEq, true_and] at h
    obtain ⟨rfl, _⟩ := h
    exact Or.inl hw'

theorem Close_noop (E : Env) (g : CacheFile) (fs : FS)
    (h : g.written = false ∨ g.hash ≠ []) : g.Close E fs = (none, g, fs) := by
  unfold CacheFile.Close
  rcases h with h | h
  · simp [h]
  · by_cases hw : g.written = true
    · simp [hw, h]
    · have hw' : g.written = false := by simpa using hw
      simp [hw']

/-- The steps of an `Install` that returned nil. -/
theorem Install_ok {E : Env} {f f' : CacheFile} {fs fs' : FS} {path : Path}
    (h : f.Install E fs path = (.ok none, f', fs')) :
    ∃ f1 fs1 hash fs2, f.Close E fs = (none, f1, fs1)
      ∧ alookup CacheData f1.data = some (.str hash)
      ∧ linkOrSymlink fs1 (Join f1.cache.root [lit "files", hash]) path = .ok fs2
      ∧ ((f1.changed = true ∧ f1.saveRecord E fs2 = (none, f', fs'))
          ∨ (f1.changed = false ∧ f' = f1 ∧ fs' = fs2)) := by
  unfold CacheFile.Install at h
  cases hc : f.Close E fs with
  | mk r rest =>
    obtain ⟨f1, fs1⟩ := rest
    cases r with
    | some err => simp [hc] at h
    | none =>
      simp only [hc] at h
      cases hd : alookup CacheData f1.data with
      | none => simp [hd] at h
      | some v =>
        cases v with
        | nil => simp [hd] at h
        | bool b => simp [hd] at h
        | obj t => simp [hd] at h
        | str hash =>
          simp only [hd] at h
          cases hl : linkOrSymlink fs1 (Join f1.cache.root [lit "files", hash]) path with
          | error e => simp [hl] at h
          | ok fs2 =>
            simp only [hl] at h
            refine ⟨f1, fs1, hash, fs2, rfl, hd, hl, ?_⟩
            by_cases hch : f1.changed = true
            · left
              simp only [hch, if_true, Prod.mk.injEq, Except.ok.injEq] at h
              obtain ⟨h1, h2, h3⟩ := h
              refine ⟨hch, ?_⟩
              rw [← h1, ← h2, ← h3]
            · right
              have hch' : f1.changed = false := by simpa using hch
              simp only [hch', Bool.false_eq_true, if_false, Prod.mk.injEq, true_and] at h
              exact ⟨hch', h.1.symm, h.2.symm⟩

/-- The effect of writing the record: the metadata file of the key holds the
encoded record and is readable; every other entry and the content of every file
that existed are kept. -/
theorem saveRecord_ok {E : Env} {f f' : CacheFile} {fs fs' : FS}
    (h : f.saveRecord E fs = (none, f', fs')) :
    f' = { f with key := (f.key.Hash E).2 }
      ∧ (∃ bytes j, E.gobEncode f.data = some bytes
          ∧ fs'.node (Join f.cache.root [lit "metadata", (f.key.Hash E).1]) = some (.file j)
          ∧ fs'.inode j = { data := bytes, mode := 0o600 })
      ∧ (∀ p n, fs.node p = some n →
          p ≠ Join f.cache.root [lit "metadata", (f.key.Hash E).1] → fs'.node p = some n)
      ∧ (∀ p i, fs.node p = some (.file i) → fs'.inode i = fs.inode i)
      ∧ (∀ p, fs.node p = some .dir → fs'.node p = some .dir)
      ∧ (∀ p, (fs.node p).isSome = true → (fs'.node p).isSome = true) := by
  unfold CacheFile.saveRecord at h
  cases hm : MkdirAll fs (Join f.cache.root [lit "metadata"]) with
  | error e => simp [hm] at h
  | ok fs1 =>
    simp only [hm] at h
    cases ht : TempFile fs1 (Join f.cache.root [lit "metadata"]) tmpPattern with
    | error e => simp [ht] at h
    | ok r =>
      obtain ⟨w, fs2⟩ := r
      simp only [ht] at h
      cases hg : E.gobEncode f.data with
      | none => simp [hg] at h
      | some bytes =>
        simp only [hg] at h
        cases hwr : File.Write fs2 w bytes with
        | error e => simp [hwr] at h
        | ok fs3 =>
          simp only [hwr] at h
          cases hr : Rename fs3 w.name
              (Join f.cache.root [lit "metadata", (f.key.Hash E).1]) with
          | error e => simp [hr] at h
          | ok fs4 =>
            simp only [hr, Prod.mk.injEq, true_and] at h
            obtain ⟨rfl, rfl⟩ := h
            obtain ⟨m1, m2⟩ := MkdirAll_ok hm
            obtain ⟨_, w2, w3⟩ := FileWrite_ok hwr
            have hwn : fs3.node w.name = some (.file w.ino) := by
              rw [node_entries fs2 fs3 w2]; exact TempFile_node_self ht
            obtain ⟨r1, r2, r3, r4, r5⟩ := Rename_file hwn hr
            have hfree : fs1.node w.name = none := (TempFile_ok ht).2.2.2.1
            have keep : ∀ p n, fs.node p = some n → fs3.node p = some n ∧ p ≠ w.name := by
              intro p n hp
              have h1 := m2 p n hp
              refine ⟨?_, ?_⟩
              · rw [node_entries fs2 fs3 w2]; exact TempFile_node_keep ht p n h1
              · intro e; rw [e, hfree] at h1; simp at h1
            refine ⟨rfl, ⟨bytes, w.ino, rfl, r2, ?_⟩, ?_, ?_, ?_, ?_⟩
            · rw [inode_inodes fs3 _ r1]
              simp only [FS.inode, w3, alookup_aset_self, Option.getD_some]
              have := TempFile_inode_self ht
              simp only [FS.inode] at this
              rw [this]
              simp
            · intro p n hp hpm
              obtain ⟨k1, k2⟩ := keep p n hp
              rw [r3 p k2 hpm]; exact k1
            · intro p i hp
              have h1 := m2 p _ hp
              obtain ⟨t1, t2⟩ := TempFile_inode_keep ht p i h1
              rw [inode_inodes fs3 _ r1]
              simp only [FS.inode, w3, alookup_aset_ne _ _ _ _ t2]
              have e1 : fs2.inode i = fs1.inode i := t1
              have e2 : fs1.inode i = fs.inode i := inode_inodes fs fs1 m1 i
              simp only [FS.inode] at e1 e2
              rw [e1, e2]
            · intro p hp
              exact r5 p (keep p _ hp).1
            · intro p hp
              cases hn : fs.node p with
              | none => rw [hn] at hp; simp at hp
              | some n =>
                obtain ⟨k1, k2⟩ := keep p n hn
                exact r4 p n k1 k2

/-! ## The JSON encoding of a key -/

theorem hexDigit_val (n : Nat) (h : n < 16) :
    (hexDigit n).val = if n < 10 then 48 + n else 87 + n := by
  unfold hexDigit
  split <;> simp [Fin.ofNat] <;> omega

theorem unquote_htmlSafe (b : Byte) (rest : List Byte) (h : htmlSafe b = true) :
    unquote (b :: rest) = (unquote rest).map fun r => (b :: r.1, r.2) := by
  have h1 : b.val ≠ 0x22 := by
    intro hb; simp [htmlSafe, hb] at h
  have h2 : b.val ≠ 0x5C := by
    intro hb; simp [htmlSafe, hb] at h
  conv_lhs => rw [unquote.eq_def]
  simp [h1, h2]

theorem unquote_high (b : Byte) (rest : List Byte) (h : 0x80 ≤ b.val) :
    unquote (b :: rest) = (unquote rest).map fun r => (b :: r.1, r.2) := by
  have h1 : b.val ≠ 0x22 := by omega
  have h2 : b.val ≠ 0x5C := by omega
  conv_lhs => rw [unquote.eq_def]
  simp [h1, h2]

theorem unquote_short (c b : Byte) (rest : List Byte) (hc : c.val ≠ 0x75)
    (h : (c.val = 0x5C ∨ c.val = 0x22) ∧ b = c ∨ c.val = 0x62 ∧ b = 0x08
      ∨ c.val = 0x66 ∧ b = 0x0C ∨ c.val = 0x6E ∧ b = 0x0A ∨ c.val = 0x72 ∧ b = 0x0D
      ∨ c.val = 0x74 ∧ b = 0x09) :
    unquote (0x5C :: c :: rest) = (unquote rest).map fun r => (b :: r.1, r.2) := by
  conv_lhs => rw [unquote.eq_def]
  have e : ((0x5C : Byte) : Nat) = 0x5C := rfl
  rcases h with ⟨h, rfl⟩ | ⟨h, rfl⟩ | ⟨h, rfl⟩ | ⟨h, rfl⟩ | ⟨h, rfl⟩ | ⟨h, rfl⟩
  · simp [hc, h, e]
  all_goals simp [h, e]

theorem unquote_u00 (h3 h4 : Byte) (rest : List Byte) :
    unquote (0x5C :: 0x75 :: 0x30 :: 0x30 :: h3 :: h4 :: rest)
      = (unquote rest).map fun r =>
          (Fin.ofNat ((if h3.val < 58 then h3.val - 48 else h3.val - 87) * 16
            + (if h4.val < 58 then h4.val - 48 else h4.val - 87)) :: r.1, r.2) := by
  conv_lhs => rw [unquote.eq_def]
  have e1 : ((0x5C : Byte) : Nat) = 0x5C := rfl
  have e2 : ((0x75 : Byte) : Nat) = 0x75 := rfl
  have e3 : ((0x30 : Byte) : Nat) = 0x30 := rfl
  simp [e1, e2, e3]

theorem unquote_escapeByte (b : Byte) (rest : List Byte) (hb : b.val < 0x80) :
    unquote (escapeByte b ++ rest) = (unquote rest).map fun r => (b :: r.1, r.2) := by
  unfold escapeByte
  split_ifs with c1 c2 c3 c4 c5 c6
  · exact unquote_short b b rest (by omega) (Or.inl ⟨c1, rfl⟩)
  · exact unquote_short _ b rest (by decide) (Or.inr (Or.inl ⟨by decide, Fin.ext c2⟩))
  · exact unquote_short _ b rest (by decide) (Or.inr (Or.inr (Or.inl ⟨by decide, Fin.ext c3⟩)))
  · exact unquote_short _ b rest (by decide)
      (Or.inr (Or.inr (Or.inr (Or.inl ⟨by decide, Fin.ext c4⟩))))
  · exact unquote_short _ b rest (by decide)
      (Or.inr (Or.inr (Or.inr (Or.inr (Or.inl ⟨by decide, Fin.ext c5⟩)))))
  · exact unquote_short _ b rest (by decide)
      (Or.inr (Or.inr (Or.inr (Or.inr (Or.inr ⟨by decide, Fin.ext c6⟩)))))
  · have key : (Fin.ofNat ((if (hexDigit (b.val / 16)).val < 58
          then (hexDigit (b.val / 16)).val - 48 else (hexDigit (b.val / 16)).val - 87) * 16
        + (if (hexDigit (b.val % 16)).val < 58
          then (hexDigit (b.val % 16)).val - 48 else (hexDigit (b.val % 16)).val - 87)) : Byte)
        = b := by
      apply Fin.ext
      rw [hexDigit_val _ (by omega), hexDigit_val _ (by omega)]
      simp only [Fin.ofNat, Nat.succ_eq_add_one]
      split_ifs <;> omega
    show unquote (0x5C :: 0x75 :: 0x30 :: 0x30 :: _ :: _ :: rest) = _
    rw [unquote_u00, key]


theorem acceptRange_lo (b : Byte) : 0x80 ≤ (acceptRange b).1 := by
  unfold acceptRange; split_ifs <;> simp

theorem runeSize_cases (b : Byte) :
    runeSize b = 1 ∨ runeSize b = 2 ∨ runeSize b = 3 ∨ runeSize b = 4 := by
  unfold runeSize; split_ifs <;> simp

theorem decode_high (b : Byte) (t : GoString) (hb : 0x80 ≤ b.val)
    (h : DecodeRuneInString (b :: t) ≠ (RuneError, 1)) :
    2 ≤ (DecodeRuneInString (b :: t)).2
      ∧ (DecodeRuneInString (b :: t)).2 ≤ t.length + 1
      ∧ (∀ x ∈ t.take ((DecodeRuneInString (b :: t)).2 - 1), 0x80 ≤ x.val) := by
  have hs : ¬ b.val < 0x80 := by omega
  have hlo := acceptRange_lo b
  rcases t with _ | ⟨s1, _ | ⟨s2, _ | ⟨s3, t3⟩⟩⟩
  all_goals
    simp only [DecodeRuneInString, hs, if_false] at h ⊢
    rcases runeSize_cases b with r | r | r | r
    all_goals
      simp only [r] at h ⊢
      simp at h ⊢
  all_goals (split_ifs <;> simp_all [isCont] <;> omega)


theorem acceptRange_hi (b : Byte) : (acceptRange b).2 ≤ 0xBF := by
  unfold acceptRange; split_ifs <;> simp

theorem acceptRange_F0 (b : Byte) (h : b.val = 0xF0) : (acceptRange b).1 = 0x90 := by
  unfold acceptRange; simp [h]

theorem runeSize_range (b : Byte) (hb : 0x80 ≤ b.val) :
    (runeSize b = 2 → b.val < 0xE0) ∧ (runeSize b = 3 → 0xE0 ≤ b.val ∧ b.val < 0xF0)
      ∧ (runeSize b = 4 → 0xF0 ≤ b.val ∧ b.val < 0xF5) := by
  unfold runeSize; split_ifs <;> simp <;> omega

theorem decode_sep (b : Byte) (t : GoString) (hb : 0x80 ≤ b.val)
    (h : DecodeRuneInString (b :: t) ≠ (RuneError, 1))
    (hc : (DecodeRuneInString (b :: t)).1 = 0x2028 ∨ (DecodeRuneInString (b :: t)).1 = 0x2029) :
    (DecodeRuneInString (b :: t)).2 = 3 ∧ b.val = 0xE2 ∧
      ∃ s1 s2 t2, t = s1 :: s2 :: t2 ∧ s1.val = 0x80
        ∧ s2.val = 0x80 + (DecodeRuneInString (b :: t)).1 % 64 := by
  have hs : ¬ b.val < 0x80 := by omega
  have hlo := acceptRange_lo b
  have hhi := acceptRange_hi b
  have hF0 := acceptRange_F0 b
  obtain ⟨r2, r3, r4⟩ := runeSize_range b hb
  rcases t with _ | ⟨s1, _ | ⟨s2, _ | ⟨s3, t3⟩⟩⟩
  all_goals
    simp only [DecodeRuneInString, hs, if_false] at h hc ⊢
    rcases runeSize_cases b with r | r | r | r
    all_goals
      simp only [r] at h hc ⊢
      simp at h hc ⊢
  all_goals
    split_ifs at hc ⊢ <;> simp_all [isCont] <;>
      first
      | omega
      | exact ⟨by omega, s1, s2, ⟨rfl, rfl⟩, by omega, by omega⟩



theorem unquote_raw (l rest : List Byte) (h : ∀ x ∈ l, 0x80 ≤ x.val) :
    unquote (l ++ rest) = (unquote rest).map fun r => (l ++ r.1, r.2) := by
  induction l with
  | nil => simp
  | cons a l ih =>
    rw [List.cons_append, unquote_high a _ (h a (List.mem_cons_self _ _)),
      ih (fun x hx => h x (List.mem_cons_of_mem _ hx))]
    cases unquote rest <;> simp

theorem unquote_sep (x : Byte) (rest : List Byte) (hx : x.val = 0x38 ∨ x.val = 0x39) :
    unquote (0x5C :: 0x75 :: 0x32 :: 0x30 :: 0x32 :: x :: rest)
      = (unquote rest).map fun r => (0xE2 :: 0x80 :: Fin.ofNat (0x70 + x.val) :: r.1, r.2) := by
  conv_lhs => rw [unquote.eq_def]
  have e1 : ((0x5C : Byte) : Nat) = 0x5C := rfl
  have e2 : ((0x75 : Byte) : Nat) = 0x75 := rfl
  have e3 : ((0x30 : Byte) : Nat) = 0x30 := rfl
  have e4 : ((0x32 : Byte) : Nat) = 0x32 := rfl
  rcases hx with hx | hx <;> simp [e1, e2, e3, e4, hx] <;> rfl

theorem unquote_quote (rest : List Byte) : unquote (0x22 :: rest) = some ([], rest) := by
  rw [unquote.eq_def]; rfl

theorem unquote_loop (fuel : Nat) : ∀ (s : GoString) (rest : List Byte),
    s.length ≤ fuel → validLoop fuel s = true →
    unquote (appendStringLoop fuel s ++ 0x22 :: rest) = some (s, rest) := by
  induction fuel with
  | zero =>
    intro s rest hl _
    have : s = [] := List.length_eq_zero.mp (Nat.le_zero.mp hl)
    subst this
    exact unquote_quote rest
  | succ fuel ih =>
    intro s rest hl hv
    rcases s with _ | ⟨b, t⟩
    · exact unquote_quote rest
    · have hlt : t.length ≤ fuel := by simpa using hl
      simp only [validLoop] at hv
      simp only [appendStringLoop]
      by_cases hb : b.val < 0x80
      · simp only [hb, if_true] at hv ⊢
        rw [List.append_assoc]
        by_cases hsafe : htmlSafe b = true
        · simp only [hsafe, if_true, List.singleton_append]
          rw [unquote_htmlSafe b _ hsafe, ih t rest hlt hv]; rfl
        · simp only [hsafe]
          rw [if_neg (by simp), unquote_escapeByte b _ hb, ih t rest hlt hv]; rfl
      · simp only [hb, if_false] at hv ⊢
        by_cases herr : DecodeRuneInString (b :: t) = (RuneError, 1)
        · simp [herr] at hv
        · simp only [herr, if_false] at hv ⊢
          obtain ⟨h2, hlen, hhigh⟩ := decode_high b t (by omega) herr
          have hdl : (t.drop ((DecodeRuneInString (b :: t)).2 - 1)).length ≤ fuel := by
            simp only [List.length_drop]; omega
          have hsplit : b :: t = (b :: t).take (DecodeRuneInString (b :: t)).2
              ++ t.drop ((DecodeRuneInString (b :: t)).2 - 1) := by
            obtain ⟨n, hn⟩ : ∃ n, (DecodeRuneInString (b :: t)).2 = n + 1 :=
                ⟨(DecodeRuneInString (b :: t)).2 - 1, by omega⟩
            rw [hn]; simp
          by_cases hsep : (DecodeRuneInString (b :: t)).1 = 0x2028
              ∨ (DecodeRuneInString (b :: t)).1 = 0x2029
          · simp only [hsep, if_true]
            obtain ⟨h3, hE2, s1, s2, t2, rfl, hs1, hs2⟩ := decode_sep b t (by omega) herr hsep
            rw [h3] at hv hdl ⊢
            simp only [List.cons_append, List.nil_append]
            rw [unquote_sep _ _ (by
              rcases hsep with e | e <;> rw [e] <;> decide)]
            rw [ih _ rest hdl hv]
            have hb2 : b = 0xE2 := Fin.ext hE2
            have hs1' : s1 = 0x80 := Fin.ext hs1
            have hs2' : (Fin.ofNat (0x70 + (hexDigit ((DecodeRuneInString
                (b :: s1 :: s2 :: t2)).1 % 16)).val) : Byte) = s2 := by
              apply Fin.ext
              rw [hs2]
              rcases hsep with e | e <;> rw [e] <;> rfl
            rw [hs2']
            simp [hb2, hs1']
          · simp only [hsep, if_false]
            rw [List.append_assoc, unquote_raw _ _ (by
              intro x hx
              obtain ⟨n, hn⟩ : ∃ n, (DecodeRuneInString (b :: t)).2 = n + 1 :=
                ⟨(DecodeRuneInString (b :: t)).2 - 1, by omega⟩
              rw [hn, List.take_succ_cons] at hx
              rcases List.mem_cons.mp hx with rfl | hx
              · omega
              · exact hhigh x (by rw [hn]; simpa using hx)),
              ih _ rest hdl hv]
            simp [← hsplit]

theorem jsonEncode_shape (k : cacheFileKey) :
    jsonEncode k = (lit "\x7b\"src\":" ++ [0x22]) ++
      (appendStringLoop k.Src.length k.Src ++ 0x22 ::
        ((lit ",\"op\":" ++ [0x22]) ++
          (appendStringLoop k.Op.length k.Op ++ 0x22 :: lit "\x7d\n"))) := by
  simp [jsonEncode, appendString, List.append_assoc]

theorem appendStringLoop_inj (s1 s2 : GoString) (r1 r2 : List Byte)
    (h1 : ValidString s1 = true) (h2 : ValidString s2 = true)
    (h : appendStringLoop s1.length s1 ++ 0x22 :: r1
        = appendStringLoop s2.length s2 ++ 0x22 :: r2) :
    s1 = s2 ∧ r1 = r2 := by
  have e1 := unquote_loop s1.length s1 r1 (Nat.le_refl _) h1
  have e2 := unquote_loop s2.length s2 r2 (Nat.le_refl _) h2
  rw [h, e2] at e1
  simpa [eq_comm] using e1

theorem jsonEncode_inj (k1 k2 : cacheFileKey)
    (hs1 : ValidString k1.Src = true) (ho1 : ValidString k1.Op = true)
    (hs2 : ValidString k2.Src = true) (ho2 : ValidString k2.Op = true)
    (h : jsonEncode k1 = jsonEncode k2) : k1.Src = k2.Src ∧ k1.Op = k2.Op := by
  rw [jsonEncode_shape, jsonEncode_shape] at h
  obtain ⟨hsrc, hrest⟩ := appendStringLoop_inj _ _ _ _ hs1 hs2 (List.append_cancel_left h)
  obtain ⟨hop, _⟩ := appendStringLoop_inj _ _ _ _ ho1 ho2 (List.append_cancel_left hrest)
  exact ⟨hsrc, hop⟩

/-! # The claims -/

/-! ## C1: content addressing -/

/-- C1, the claim as stated fails for the empty sequence of `Write` calls: on a
new entry `Close` returns nil without doing anything, so `Hash()` is empty and
not the digest of the empty content, and `"_DATA_"` is not set. -/
theorem C1_counterexample :
    exGet = (.ok (entryOf exGet), exGet.2)
      ∧ (entryOf exGet).WriteAll exGet.2 [] = some (entryOf exGet, exGet.2)
      ∧ ((entryOf exGet).Close toyEnv exGet.2).1 = none
      ∧ ((entryOf exGet).Close toyEnv exGet.2).2.1.Hash
          ≠ hexEncode (toyEnv.sha512 ([] : List (List Byte)).flatten)
      ∧ alookup CacheData ((entryOf exGet).Close toyEnv exGet.2).2.1.data = none := by
  decide

/-- Content addressing: after `GetFile`, a non-empty sequence of successful
`Write` calls and a `Close` that returns nil, the hash of the entry is the hex
digest of the bytes written, `"_DATA_"` holds it, and the blob holds the bytes. -/
theorem content_addressing (E : Env) (c : Cache) (fs fs1 fs2 fs3 : FS)
    (src op : GoString) (f f2 f3 : CacheFile) (ps : List (List Byte))
    (hget : c.GetFile E fs src op = (.ok f, fs1))
    (hps : ps ≠ [])
    (hw : f.WriteAll fs1 ps = some (f2, fs2))
    (hc : f2.Close E fs2 = (none, f3, fs3)) :
    f3.Hash = hexEncode (E.sha512 ps.flatten)
      ∧ alookup CacheData f3.data = some (.str f3.Hash)
      ∧ fs3.content (Join c.root [lit "files", f3.Hash]) = some ps.flatten := by
  obtain ⟨g1, _, g3, g4, g5, g6, _, g8, g9, _⟩ := GetFile_ok hget
  obtain ⟨w1, w2, w3, _⟩ := WriteAll_ok ps f f2 fs1 fs2 g6 hw
  have hne : ps.isEmpty = false := by
    cases ps with
    | nil => exact absurd rfl hps
    | cons _ _ => rfl
  have hwr : f2.written = true := by rw [w1]; simp [hne]
  have hh : f2.hash = [] := by rw [w1]; exact g3
  have hf : f2.f = f.f := by rw [w1]
  have hn : fs2.node f2.f.name = some (.file f.f.ino) := by
    rw [hf, node_entries fs1 fs2 w2]; exact g8
  obtain ⟨c1, c2, c3, _, _⟩ := Close_full hwr hh hn hc
  have hH : f2.h = ps.flatten := by rw [w1]; simp [g4]
  have hcache : f2.cache = c := by rw [w1]; exact g5
  have hhash : f3.Hash = hexEncode (E.sha512 ps.flatten) := by
    rw [CacheFile.Hash, c1, hH]
  refine ⟨hhash, ?_, ?_⟩
  · rw [CacheFile.Hash, c1]
    exact alookup_aset_self _ _ _
  · rw [hhash, ← hH, ← hcache, content_of_file fs3 _ _ c2, c3, w3, g9]
    simp [hH]

/-- C1 (amended): for every entry obtained from `GetFile` and every non-empty
sequence of `Write` calls that all succeed, a `Close` that returns nil leaves
`Hash()` equal to the hex SHA-512 digest of the concatenation of the bytes
written, sets `"_DATA_"` to that string, and leaves a file at
`<root>/files/<Hash()>` whose content is exactly those bytes.  Consequently any
other entry that was written the same bytes, under any split into at least one
`Write` call, gets the same blob identifier. -/
theorem C1_content_addressing (E : Env) (c : Cache) (fs fs1 fs2 fs3 : FS)
    (src op : GoString) (f f2 f3 : CacheFile) (ps : List (List Byte))
    (hget : c.GetFile E fs src op = (.ok f, fs1))
    (hps : ps ≠ [])
    (hw : f.WriteAll fs1 ps = some (f2, fs2))
    (hc : f2.Close E fs2 = (none, f3, fs3)) :
    f3.Hash = hexEncode (E.sha512 ps.flatten)
      ∧ alookup CacheData f3.data = some (.str f3.Hash)
      ∧ fs3.content (Join c.root [lit "files", f3.Hash]) = some ps.flatten
      ∧ ∀ (c' : Cache) (gs gs1 gs2 gs3 : FS) (src' op' : GoString) (g g2 g3 : CacheFile)
          (qs : List (List Byte)),
          c'.GetFile E gs src' op' = (.ok g, gs1) → qs ≠ [] → qs.flatten = ps.flatten →
          g.WriteAll gs1 qs = some (g2, gs2) → g2.Close E gs2 = (none, g3, gs3) →
          g3.Hash = f3.Hash := by
  obtain ⟨h1, h2, h3⟩ := content_addressing E c fs fs1 fs2 fs3 src op f f2 f3 ps hget hps hw hc
  refine ⟨h1, h2, h3, ?_⟩
  intro c' gs gs1 gs2 gs3 src' op' g g2 g3 qs hg hqs hsame hwg hcg
  rw [(content_addressing E c' gs gs1 gs2 gs3 src' op' g g2 g3 qs hg hqs hwg hcg).1, h1, hsame]

/-- C1 (amended), on the example: two writes to a new entry. -/
theorem C1_content_addressing_witness :
    [lit "hello ", lit "world"] ≠ ([] : List (List Byte))
      ∧ (exWritten.1.Close toyEnv exWritten.2).2.1.Hash
          = hexEncode (toyEnv.sha512 [lit "hello ", lit "world"].flatten) :=
  ⟨by decide,
    (C1_content_addressing toyEnv exCache exFS exGet.2 exWritten.2
      (exWritten.1.Close toyEnv exWritten.2).2.2 (lit "a.go") (lit "mockFile")
      (entryOf exGet) exWritten.1 (exWritten.1.Close toyEnv exWritten.2).2.1
      [lit "hello ", lit "world"] (by decide) (by decide) (by decide) (by decide)).1⟩

/-! ## C2: the round trip through the cache -/

theorem key_Hash_twice (E : Env) (k : cacheFileKey) :
    ((k.Hash E).2.Hash E).1 = (k.Hash E).1 := by
  unfold cacheFileKey.Hash
  by_cases h : k.hash = []
  · simp [h, cacheFileKey.calcHash, hexEncode_ne_nil]
  · simp [h]

theorem Join_files_ne_metadata (r : Path) (a b : GoString) :
    Join r [lit "files", a] ≠ Join r [lit "metadata", b] := by
  intro h
  unfold Join at h
  have h1 := List.append_cancel_left h
  have e1 : lit "files" ≠ [] := by decide
  have e2 : lit "metadata" ≠ [] := by decide
  simp only [List.filter_cons, e1, e2, ne_eq, not_false_eq_true, decide_True, if_true] at h1
  have h2 := (List.cons.inj h1).1
  exact absurd h2 (by decide)

theorem Store_ok {f f3 : CacheFile} {x : GoString} {v : Value}
    (h : f.Store x v = (none, f3)) :
    f3 = { f with data := aset x v f.data } ∧ x ≠ CacheData := by
  unfold CacheFile.Store at h
  cases x with
  | nil => simp at h
  | cons c t =>
    by_cases hc : c = 0x5F
    · simp [hc] at h
    · simp only [hc, if_false, Prod.mk.injEq, true_and] at h
      refine ⟨h.symm, ?_⟩
      intro e
      have : (c :: t).head? = CacheData.head? := by rw [e]
      simp only [List.head?_cons] at this
      have h2 : CacheData.head? = some 0x5F := by decide
      rw [h2] at this
      exact hc (Option.some.inj this)

/-- A hit: with the `files` directory in place and a readable metadata file for
the key that decodes, `GetFile` returns an entry with the decoded record, and
keeps every entry and the content of every file. -/
theorem GetFile_hit (E : Env) (c : Cache) (fs : FS) (src op : GoString) (j : Nat)
    (r : Record)
    (hdir : fs.node (Join c.root [lit "files"]) = some .dir)
    (hm : fs.node (Join c.root [lit "metadata", ((newCacheFileKey src op).Hash E).1])
      = some (.file j))
    (hmode : (fs.inode j).mode / 256 % 2 = 1)
    (hdec : E.gobDecode (fs.inode j).data = some r) :
    ∃ f fs', c.GetFile E fs src op = (.ok f, fs') ∧ f.data = r
      ∧ (∀ p n, fs.node p = some n → fs'.node p = some n)
      ∧ (∀ p i, fs.node p = some (.file i) → fs'.inode i = fs.inode i) := by
  obtain ⟨tf, fs1, ht⟩ := TempFile_succeeds fs (Join c.root [lit "files"]) tmpPattern hdir
  have hm1 := TempFile_node_keep ht _ _ hm
  have hi1 := (TempFile_inode_keep ht _ _ hm).1
  have hopen : Open fs1 (Join c.root [lit "metadata", ((newCacheFileKey src op).Hash E).1])
      = .ok (.file j) := by
    simp [Open, FS.resolve, hm1, hi1, hmode]
  have hload : c.loadFile E (newCacheFileKey src op) fs
      = (.ok { key := ((newCacheFileKey src op).Hash E).2, f := tf, written := false,
               changed := false, h := [], cache := c, hash := [], data := r },
          ((newCacheFileKey src op).Hash E).2, fs1) := by
    simp [Cache.loadFile, ht, hopen, gobDecodeFrom, hi1, hdec]
  refine ⟨{ key := ((newCacheFileKey src op).Hash E).2, f := tf, written := false,
            changed := false, h := [], cache := c, hash := [], data := r }, fs1,
    by simp [Cache.GetFile, hload], rfl, ?_, ?_⟩
  · intro p n hp; exact TempFile_node_keep ht p n hp
  · intro p i hp; exact (TempFile_inode_keep ht p i hp).1

/-- C2 (amended): take an entry returned by `GetFile(src, op)`, write the bytes
`b` through at least one `Write`, `Store(x, v)` under a non-reserved name, and
`Install(path)` with result nil, where `path` is not the metadata file of the
key itself.  If gob decoding inverts gob encoding on the stored record, a fresh
`GetFile(src, op)` returns an entry with `Get(x) = v` and `HasData()`, and the
file at `path` has content `b`, before and after that `GetFile`. -/
theorem C2_round_trip (E : Env) (c : Cache) (fs fs1 fs2 fs3 : FS) (src op : GoString)
    (f f2 f3 f4 : CacheFile) (ps : List (List Byte)) (x : GoString) (v : Value) (path : Path)
    (hget : c.GetFile E fs src op = (.ok f, fs1))
    (hps : ps ≠ [])
    (hw : f.WriteAll fs1 ps = some (f2, fs2))
    (hs : f2.Store x v = (none, f3))
    (hi : f3.Install E fs2 path = (.ok none, f4, fs3))
    (hpath : path ≠ Join c.root [lit "metadata", ((newCacheFileKey src op).Hash E).1])
    (hgob : ∀ b, E.gobEncode f4.data = some b → E.gobDecode b = some f4.data) :
    ∃ g fs4, c.GetFile E fs3 src op = (.ok g, fs4) ∧ g.Get x = v ∧ g.HasData = true
      ∧ fs3.content path = some ps.flatten ∧ fs4.content path = some ps.flatten := by
  obtain ⟨_, _, g3, g4, g5, g6, g7, g8, g9, g10⟩ := GetFile_ok hget
  obtain ⟨w1, w2, w3, _⟩ := WriteAll_ok ps f f2 fs1 fs2 g6 hw
  obtain ⟨s1, s2⟩ := Store_ok hs
  have hne : ps.isEmpty = false := by
    cases ps with
    | nil => exact absurd rfl hps
    | cons _ _ => rfl
  have hwr : f3.written = true := by rw [s1, w1]; simp [hne]
  have hh : f3.hash = [] := by rw [s1, w1]; exact g3
  have hn : fs2.node f3.f.name = some (.file f.f.ino) := by
    rw [s1, w1, node_entries fs1 fs2 w2]; exact g8
  have hcache : f3.cache = c := by rw [s1, w1]; exact g5
  have hkey : f3.key = ((newCacheFileKey src op).Hash E).2 := by rw [s1, w1]; exact g7
  obtain ⟨g, gs, hash, fsL, hc, hd, hl, hrest⟩ := Install_ok hi
  obtain ⟨c1, c2, c3, c4, _⟩ := Close_full hwr hh hn hc
  have hgc : g.cache = c := by rw [c1]; exact hcache
  have hgk : g.key = ((newCacheFileKey src op).Hash E).2 := by rw [c1]; exact hkey
  have hgch : g.changed = true := by rw [c1]
  have hgd : g.data = aset CacheData (.str (hexEncode (E.sha512 f3.h))) (aset x v f.data) := by
    rw [c1, s1, w1]
  have hhash : hash = hexEncode (E.sha512 f3.h) := by
    rw [hgd, alookup_aset_self] at hd
    simp only [Option.some.injEq, Value.str.injEq] at hd
    exact hd.symm
  rw [hhash, hgc] at hl
  rw [hcache] at c2
  have hsave : g.saveRecord E fsL = (none, f4, fs3) := by
    rcases hrest with ⟨_, hsv⟩ | ⟨hf, _⟩
    · exact hsv
    · rw [hgch] at hf; exact absurd hf (by simp)
  obtain ⟨v1, ⟨bytes, j, v2, v3, v4⟩, v5, v6, v7, _⟩ := saveRecord_ok hsave
  have hmp : Join g.cache.root [lit "metadata", (g.key.Hash E).1]
      = Join c.root [lit "metadata", ((newCacheFileKey src op).Hash E).1] := by
    rw [hgc, hgk, key_Hash_twice]
  rw [hmp] at v3 v5
  have hf4d : f4.data = g.data := by rw [v1]
  -- the files directory is still there
  have hdir3 : fs3.node (Join c.root [lit "files"]) = some .dir := by
    apply v7
    apply linkOrSymlink_keep hl
    apply c4
    rw [node_entries fs1 fs2 w2]; exact g10
  -- the metadata file decodes to the record
  have hdec : E.gobDecode (fs3.inode j).data = some f4.data := by
    rw [v4]
    exact hgob bytes (by rw [hf4d]; exact v2)
  have hmode : (fs3.inode j).mode / 256 % 2 = 1 := by rw [v4]; simp
  obtain ⟨g', fs4, q1, q2, q3, q4⟩ := GetFile_hit E c fs3 src op j f4.data hdir3 v3 hmode hdec
  -- the content of the written inode
  have hino : (gs.inode f.f.ino).data = ps.flatten := by
    rw [c3, w3, g9]; simp
  have hinoL : (fsL.inode f.f.ino).data = ps.flatten := by
    rw [inode_inodes gs fsL (linkOrSymlink_ok hl).2.2.1]; exact hino
  have hblob : Join c.root [lit "files", hexEncode (E.sha512 f3.h)]
      ≠ Join c.root [lit "metadata", ((newCacheFileKey src op).Hash E).1] :=
    Join_files_ne_metadata _ _ _
  have hcontent3 : (fs3.node path = some (.file f.f.ino)
      ∨ (fs3.node path = some (.symlink (Join c.root [lit "files", hexEncode (E.sha512 f3.h)]))
          ∧ fs3.node (Join c.root [lit "files", hexEncode (E.sha512 f3.h)])
            = some (.file f.f.ino)))
      ∧ (fs3.inode f.f.ino).data = ps.flatten := by
    rcases linkOrSymlink_content hl c2 with hp | ⟨hp, hb⟩
    · exact ⟨Or.inl (v5 _ _ hp hpath), by rw [v6 _ _ hp]; exact hinoL⟩
    · exact ⟨Or.inr ⟨v5 _ _ hp hpath, v5 _ _ hb hblob⟩, by rw [v6 _ _ hb]; exact hinoL⟩
  refine ⟨g', fs4, q1, ?_, ?_, ?_, ?_⟩
  · rw [CacheFile.Get, q2, hf4d, hgd, alookup_aset_ne _ _ _ _ s2, alookup_aset_self]
    rfl
  · simp [CacheFile.HasData, CacheFile.Has, q2, hf4d, hgd, alookup_aset_self]
  · rcases hcontent3 with ⟨hp | ⟨hp, hb⟩, hdata⟩
    · rw [content_of_file fs3 _ _ hp, hdata]
    · rw [content_of_symlink fs3 _ _ _ hp hb, hdata]
  · rcases hcontent3 with ⟨hp | ⟨hp, hb⟩, hdata⟩
    · rw [content_of_file fs4 _ _ (q3 _ _ hp), q4 _ _ hp, hdata]
    · rw [content_of_symlink fs4 _ _ _ (q3 _ _ hp) (q3 _ _ hb), q4 _ _ hb, hdata]

/-- C2, the claim as stated fails for one destination: when `path` is the
metadata file of the key itself, `Install` first links the blob there and then
renames the encoded record over it.  `Install` returns nil and the record still
decodes, but the file at `path` holds the record and not the bytes written. -/
theorem C2_counterexample :
    exMetaGet = (.ok (entryOf exMetaGet), exMetaGet.2)
      ∧ (entryOf exMetaGet).data = []
      ∧ (entryOf exMetaGet).WriteAll exMetaGet.2 [lit "hello"] = some exMetaWritten
      ∧ (exMetaWritten.1.Store (lit "name") (.str (lit "pkg"))).1 = none
      ∧ exMetaInstalled.1 = .ok none
      ∧ toyEnv.gobEncode exMetaInstalled.2.1.data = some (toyEncode exMetaInstalled.2.1.data)
      ∧ toyEnv.gobDecode (toyEncode exMetaInstalled.2.1.data) = some exMetaInstalled.2.1.data
      ∧ exMetaInstalled.2.2.content exMetaPath = some (toyEncode exMetaInstalled.2.1.data)
      ∧ exMetaInstalled.2.2.content exMetaPath ≠ some (lit "hello") := by
  decide

/-- C2 (amended), on the example: two writes, a stored name, and the install to
`/out/a.go`. -/
theorem C2_round_trip_witness :
    exInstalled = (.ok none, exInstalled.2.1, exInstalled.2.2)
      ∧ ∃ g fs4, exCache.GetFile toyEnv exInstalled.2.2 (lit "a.go") (lit "mockFile")
            = (.ok g, fs4)
          ∧ g.Get (lit "name") = .str (lit "pkg") ∧ g.HasData = true
          ∧ exInstalled.2.2.content [lit "out", lit "a.go"]
              = some [lit "hello ", lit "world"].flatten
          ∧ fs4.content [lit "out", lit "a.go"] = some [lit "hello ", lit "world"].flatten :=
  ⟨by decide,
    C2_round_trip toyEnv exCache exFS exGet.2 exWritten.2 exInstalled.2.2 (lit "a.go")
      (lit "mockFile") (entryOf exGet) exWritten.1
      (exWritten.1.Store (lit "name") (.str (lit "pkg"))).2 exInstalled.2.1
      [lit "hello ", lit "world"] (lit "name") (.str (lit "pkg")) [lit "out", lit "a.go"]
      (by decide) (by decide) (by decide) (by decide) (by decide) (by decide)
      (fun b hb => Option.some.inj hb ▸ (by decide))⟩

/-! ## C3: `GetFile` on a cache root without a `files` directory -/

/-- Without a `files` directory `GetFile` fails, whatever the key: the temporary
file of `loadFile` cannot be created, the error is wrapped in a `Cerr`, which
`os.IsNotExist` does not look through, and the `MkdirAll` of the miss path is
never reached. -/
theorem GetFile_without_files_dir (E : Env) (c : Cache) (fs : FS) (src op : GoString)
    (h : fs.node (Join c.root [lit "files"]) = none) :
    c.GetFile E fs src op
      = (.error (.cerr "loadFile" (.cerr "TempFile" (.sys "open" .ENOENT))), fs) := by
  simp [Cache.GetFile, Cache.loadFile, TempFile, h, IsNotExist]

/-- C3, at the failing input: a cache root with no `files` directory and no
metadata for the key.  `GetFile` returns an error and no entry, although the
directory could be created (`MkdirAll` succeeds) and the same call on a root
that has the directory returns a new entry with an empty record. -/
theorem C3_missing_files_dir :
    exBare.node (Join exCache.root [lit "files"]) = none
      ∧ exBare.node (Join exCache.root [lit "metadata",
          ((newCacheFileKey (lit "a.go") (lit "mockFile")).Hash toyEnv).1]) = none
      ∧ exCache.GetFile toyEnv exBare (lit "a.go") (lit "mockFile")
          = (.error (.cerr "loadFile" (.cerr "TempFile" (.sys "open" .ENOENT))), exBare)
      ∧ (MkdirAll exBare (Join exCache.root [lit "files"])).isOk = true
      ∧ exGet.1 = .ok (entryOf exGet)
      ∧ (entryOf exGet).data = [] := by
  decide

/-! ## C4: the fingerprint of a key -/

/-- C4, the claim as stated fails: two keys that differ in `Src` by an invalid
UTF-8 byte have the same JSON encoding, so the encoding is equal although the
sources are not. -/
theorem C4_counterexample :
    ¬ (jsonEncode (newCacheFileKey [0xFF] (lit "mockFile"))
          = jsonEncode (newCacheFileKey [0xFE] (lit "mockFile"))
        ↔ (newCacheFileKey [0xFF] (lit "mockFile")).Src
            = (newCacheFileKey [0xFE] (lit "mockFile")).Src
          ∧ (newCacheFileKey [0xFF] (lit "mockFile")).Op
            = (newCacheFileKey [0xFE] (lit "mockFile")).Op) := by
  decide

/-- C4 (amended): for keys made by `newCacheFileKey` from strings that are valid
UTF-8, the JSON encoding fed to SHA-512 is equal exactly when source and
operation are equal; equal keys have equal fingerprints, and a repeated `Hash`
call on the key returns the cached fingerprint again. -/
theorem C4_key_fingerprint (E : Env) (s1 o1 s2 o2 : GoString)
    (hs1 : ValidString s1 = true) (ho1 : ValidString o1 = true)
    (hs2 : ValidString s2 = true) (ho2 : ValidString o2 = true) :
    (jsonEncode (newCacheFileKey s1 o1) = jsonEncode (newCacheFileKey s2 o2)
        ↔ s1 = s2 ∧ o1 = o2)
      ∧ (s1 = s2 ∧ o1 = o2 →
          ((newCacheFileKey s1 o1).Hash E).1 = ((newCacheFileKey s2 o2).Hash E).1)
      ∧ ((newCacheFileKey s1 o1).Hash E).1
          = hexEncode (E.sha512 (jsonEncode (newCacheFileKey s1 o1)))
      ∧ (((newCacheFileKey s1 o1).Hash E).2.Hash E).1 = ((newCacheFileKey s1 o1).Hash E).1 := by
  refine ⟨⟨fun h => ?_, fun h => ?_⟩, fun h => ?_, ?_, ?_⟩
  · exact jsonEncode_inj (newCacheFileKey s1 o1) (newCacheFileKey s2 o2) hs1 ho1 hs2 ho2 h
  · rw [h.1, h.2]
  · rw [h.1, h.2]
  · simp [cacheFileKey.Hash, newCacheFileKey, cacheFileKey.calcHash]
  · simp only [cacheFileKey.Hash, newCacheFileKey, cacheFileKey.calcHash, if_true]
    split <;> rfl

/-- C4 (amended), at a concrete pair of keys. -/
theorem C4_key_fingerprint_witness :
    ValidString (lit "a.go") = true ∧ ValidString (lit "mockFile") = true
      ∧ ValidString (lit "b.go") = true
      ∧ (jsonEncode (newCacheFileKey (lit "a.go") (lit "mockFile"))
          = jsonEncode (newCacheFileKey (lit "b.go") (lit "mockFile"))
        ↔ lit "a.go" = lit "b.go" ∧ lit "mockFile" = lit "mockFile") :=
  ⟨by decide, by decide, by decide,
    (C4_key_fingerprint toyEnv (lit "a.go") (lit "mockFile") (lit "b.go") (lit "mockFile")
      (by decide) (by decide) (by decide) (by decide)).1⟩

/-! ## C5: `Store` and the dirty flag -/

/-- The method `Store` never touches the dirty flag. -/
theorem Store_changed (f : CacheFile) (name : GoString) (v : Value) :
    (f.Store name v).2.changed = f.changed := by
  unfold CacheFile.Store
  cases name with
  | nil => rfl
  | cons c t => by_cases h : c = 0x5F <;> simp [h]

/-- C5, at the failing input: an entry loaded from a cache hit receives
`Store("ignore", true)` and no `Write`.  The dirty flag stays false, `Install`
returns nil without writing the record, the metadata file is the same as before,
and a later `GetFile` does not see the field. -/
theorem C5_store_not_dirty :
    exHit.1 = .ok (entryOf exHit)
      ∧ (entryOf exHit).HasData = true
      ∧ ((entryOf exHit).Store (lit "ignore") (.bool true)).1 = none
      ∧ exStoredHit.Has [lit "ignore"] = true
      ∧ exStoredHit.changed = false
      ∧ exReinstalled.1 = .ok none
      ∧ exReinstalled.2.2.content (Join exCache.root [lit "metadata", exStoredHit.key.hash])
          = exHit.2.content (Join exCache.root [lit "metadata", exStoredHit.key.hash])
      ∧ (entryOf (exCache.GetFile toyEnv exReinstalled.2.2 (lit "a.go") (lit "mockFile"))).Has
          [lit "ignore"] = false := by
  decide

/-! ## C6: `Install` needs a content hash -/

/-- C6: on an entry that was never written to and whose record has no
`"_DATA_"` field, `Install` returns the error "Failed to get hash" and leaves
the entry and the filesystem (the destination and the metadata store included)
as they were. -/
theorem C6_install_requires_hash (E : Env) (f : CacheFile) (fs : FS) (path : Path)
    (hw : f.written = false) (hd : alookup CacheData f.data = none) :
    f.Install E fs path = (.ok (some (.errorf "Failed to get hash")), f, fs) := by
  simp [CacheFile.Install, CacheFile.Close, hw, hd]

/-- C6, on the example: a new entry that was not written to. -/
theorem C6_install_requires_hash_witness :
    (entryOf exGet).written = false ∧ alookup CacheData (entryOf exGet).data = none
      ∧ (entryOf exGet).Install toyEnv exGet.2 [lit "out", lit "a.go"]
          = (.ok (some (.errorf "Failed to get hash")), entryOf exGet, exGet.2) :=
  ⟨by decide, by decide,
    C6_install_requires_hash toyEnv (entryOf exGet) exGet.2 [lit "out", lit "a.go"]
      (by decide) (by decide)⟩

/-! ## C7: installing twice -/

/-- C7, the claim as stated fails: after an `Install` that returned nil, a
second `Install` to the same path returns an error, because neither the hard
link nor the symbolic link can be made over the existing destination. -/
theorem C7_counterexample :
    exInstalled.1 = .ok none
      ∧ (exInstalled.2.1.Install toyEnv exInstalled.2.2 [lit "out", lit "a.go"]).1
          = .ok (some (.cerr "os.Symlink" (.sys "symlink" .EEXIST))) := by
  decide

/-- C7 (amended): if `Install(path)` returns nil, a second `Install(path)` on
the same entry returns the error of the failed link, and leaves the entry and
the filesystem (the content at `path`, the blob store and the metadata store)
exactly as after the first call. -/
theorem C7_second_install (E : Env) (f f1 : CacheFile) (fs fs1 : FS) (path : Path)
    (h : f.Install E fs path = (.ok none, f1, fs1)) :
    ∃ e, f1.Install E fs1 path = (.ok (some (.cerr "os.Symlink" e)), f1, fs1) := by
  obtain ⟨g, gs, hash, fs2, hc, hd, hl, hrest⟩ := Install_ok h
  have hclosed := Close_result hc
  have hpath2 : (fs2.node path).isSome = true := by
    obtain ⟨_, hne, _, n, _, he⟩ := linkOrSymlink_ok hl
    simp [FS.node, he, hne, alookup_aset_self]
  have hfacts : (f1.written = false ∨ f1.hash ≠ []) ∧ f1.data = g.data ∧ f1.cache = g.cache
      ∧ (fs1.node path).isSome = true := by
    rcases hrest with ⟨_, hs⟩ | ⟨_, e1, e2⟩
    · obtain ⟨s1, _, _, _, _, s6⟩ := saveRecord_ok hs
      rw [s1]
      exact ⟨hclosed, rfl, rfl, s6 path hpath2⟩
    · rw [e1, e2]
      exact ⟨hclosed, rfl, rfl, hpath2⟩
  obtain ⟨k1, k2, k3, k4⟩ := hfacts
  obtain ⟨e, he⟩ := linkOrSymlink_exists fs1 (Join f1.cache.root [lit "files", hash]) path k4
  refine ⟨e, ?_⟩
  unfold CacheFile.Install
  rw [Close_noop E f1 fs1 k1]
  simp only [k2, hd, he]

/-- C7 (amended), on the example. -/
theorem C7_second_install_witness :
    exInstalled = (.ok none, exInstalled.2.1, exInstalled.2.2)
      ∧ ∃ e, exInstalled.2.1.Install toyEnv exInstalled.2.2 [lit "out", lit "a.go"]
          = (.ok (some (.cerr "os.Symlink" e)), exInstalled.2.1, exInstalled.2.2) :=
  ⟨by decide,
    C7_second_install toyEnv (exWritten.1.Store (lit "name") (.str (lit "pkg"))).2
      exInstalled.2.1 exWritten.2 exInstalled.2.2 [lit "out", lit "a.go"] (by decide)⟩

/-! ## C8: reserved field names -/

/-- C8: for a field name that begins with `_`, `Store` panics with the usage
error and the entry, its record included, is what it was before the call. -/
theorem C8_reserved_field_rejected (f : CacheFile) (name : GoString) (v : Value)
    (h : name.head? = some 0x5F) :
    f.Store name v = (some (.privateMember name), f) := by
  cases name with
  | nil => simp at h
  | cons c t =>
    simp only [List.head?_cons, Option.some.injEq] at h
    simp [CacheFile.Store, h]

/-- C8, on the example: storing under `"_DATA_"` in an installed entry leaves
the content hash in place. -/
theorem C8_reserved_field_rejected_witness :
    CacheData.head? = some 0x5F
      ∧ exInstalled.2.1.Store CacheData (.str []) = (some (.privateMember CacheData), exInstalled.2.1)
      ∧ exInstalled.2.1.HasData = true :=
  ⟨by decide, C8_reserved_field_rejected exInstalled.2.1 CacheData (.str []) (by decide),
    by decide⟩

/-! ## C9: `Close` is idempotent -/

/-- C9: if `Close` returns nil, a second `Close` returns nil and changes neither
the entry nor the filesystem; and on an entry that was never written to, the
first `Close` changes nothing either. -/
theorem C9_close_idempotent (E : Env) (f f1 : CacheFile) (fs fs1 : FS)
    (h : f.Close E fs = (none, f1, fs1)) :
    f1.Close E fs1 = (none, f1, fs1) ∧ (f.written = false → f1 = f ∧ fs1 = fs) := by
  unfold CacheFile.Close at h
  by_cases hw : f.written = true
  · simp only [hw, Bool.not_true, Bool.false_eq_true, if_false] at h
    by_cases hh : f.hash = []
    · simp only [hh, ne_eq, not_true_eq_false, if_false] at h
      refine ⟨?_, fun h0 => by rw [hw] at h0; exact absurd h0 (by simp)⟩
      cases hc : File.Close f.f with
      | error e => simp [hc] at h
      | ok file =>
        simp only [hc] at h
        cases hr : Rename fs file.name
            (Join f.cache.root [lit "files", hexEncode (E.sha512 f.h)]) with
        | error e => simp [hr] at h
        | ok fs2 =>
          simp only [hr] at h
          cases hm : Chmod fs2 (Join f.cache.root [lit "files", hexEncode (E.sha512 f.h)])
              0o400 with
          | error e => simp [hm] at h
          | ok fs3 =>
            simp only [hm, Prod.mk.injEq, true_and] at h
            obtain ⟨rfl, rfl⟩ := h
            simp [CacheFile.Close, hw, hexEncode_ne_nil]
    · simp only [ne_eq, hh, not_false_eq_true, if_true, Prod.mk.injEq, true_and] at h
      obtain ⟨rfl, rfl⟩ := h
      exact ⟨by simp [CacheFile.Close, hw, hh], fun _ => ⟨rfl, rfl⟩⟩
  · have hw' : f.written = false := by simpa using hw
    simp only [hw', Bool.not_false, if_true, Prod.mk.injEq, true_and] at h
    obtain ⟨rfl, rfl⟩ := h
    exact ⟨by simp [CacheFile.Close, hw'], fun _ => ⟨rfl, rfl⟩⟩

/-- C9, on the example: closing the written entry twice. -/
theorem C9_close_idempotent_witness :
    exWritten.1.Close toyEnv exWritten.2
        = (none, (exWritten.1.Close toyEnv exWritten.2).2.1,
            (exWritten.1.Close toyEnv exWritten.2).2.2)
      ∧ (exWritten.1.Close toyEnv exWritten.2).2.1.Close toyEnv
          (exWritten.1.Close toyEnv exWritten.2).2.2
        = (none, (exWritten.1.Close toyEnv exWritten.2).2.1,
            (exWritten.1.Close toyEnv exWritten.2).2.2) :=
  ⟨by decide,
    (C9_close_idempotent toyEnv exWritten.1 (exWritten.1.Close toyEnv exWritten.2).2.1
      exWritten.2 (exWritten.1.Close toyEnv exWritten.2).2.2 (by decide)).1⟩

/-! ## C10: an entry after a failed `Close` -/

/-- Whenever the rename inside `Close` fails, `Close` returns the error and
leaves the hash set and the record as it was, and the next `Close` returns
nil. -/
theorem Close_after_failed_rename (E : Env) (f : CacheFile) (fs : FS) (e : Error)
    (hw : f.written = true) (hh : f.hash = []) (hc : f.f.closed = false)
    (hr : Rename fs f.f.name (Join f.cache.root [lit "files", hexEncode (E.sha512 f.h)])
      = .error e) :
    f.Close E fs = (some (.cerr "os.Rename" e),
        { f with changed := true, f := { f.f with closed := true },
                 hash := hexEncode (E.sha512 f.h) }, fs)
      ∧ (f.Close E fs).2.1.Hash ≠ []
      ∧ (f.Close E fs).2.1.data = f.data
      ∧ (f.Close E fs).2.1.Close E (f.Close E fs).2.2
          = (none, (f.Close E fs).2.1, (f.Close E fs).2.2) := by
  have h1 : f.Close E fs = (some (.cerr "os.Rename" e),
      { f with changed := true, f := { f.f with closed := true },
               hash := hexEncode (E.sha512 f.h) }, fs) := by
    simp [CacheFile.Close, hw, hh, File.Close, hc, hr]
  refine ⟨h1, ?_, ?_, ?_⟩
  · rw [h1]; exact hexEncode_ne_nil E f.h
  · rw [h1]
  · rw [h1]
    exact Close_noop E _ fs (Or.inr (hexEncode_ne_nil E f.h))

/-- C10, at the failing input: a directory stands where the blob of the content
would go, so the rename inside `Close` fails.  `Close` returns the error of the
rename, yet `Hash()` is set, `"_DATA_"` is absent and there is no blob at
`<root>/files/<Hash()>`; a second `Close` on the same entry returns nil and
`"_DATA_"` is still absent. -/
theorem C10_failed_close_looks_closed :
    (∃ e, exFailedClose.1 = some (.cerr "os.Rename" e))
      ∧ exFailedClose.2.1.Hash ≠ []
      ∧ alookup CacheData exFailedClose.2.1.data = none
      ∧ exFailedClose.2.2.content (Join exCache.root [lit "files", exFailedClose.2.1.Hash])
          = none
      ∧ (exFailedClose.2.1.Close toyEnv exFailedClose.2.2).1 = none
      ∧ alookup CacheData (exFailedClose.2.1.Close toyEnv exFailedClose.2.2).2.1.data
          = none :=
  ⟨⟨.sys "rename" .EEXIST, by decide⟩, by decide⟩

/-! ## C11: `Store` on non-reserved names -/

/-- On a name that is not empty and does not begin with `_`, `Store` completes;
afterwards `Lookup(name)` returns the value, `Has(name)` is true, and every
other field has the presence and value it had before. -/
theorem Store_nonempty (f : CacheFile) (name : GoString) (v : Value)
    (hne : name ≠ []) (hres : name.head? ≠ some 0x5F) :
    (f.Store name v).1 = none
      ∧ (f.Store name v).2.Lookup name = (v, true)
      ∧ (f.Store name v).2.Has [name] = true
      ∧ ∀ n, n ≠ name →
          (f.Store name v).2.Lookup n = f.Lookup n ∧ (f.Store name v).2.Has [n] = f.Has [n] := by
  cases name with
  | nil => exact absurd rfl hne
  | cons c t =>
    have hc : c ≠ 0x5F := by
      intro e; exact hres (by simp [e])
    have hs : f.Store (c :: t) v = (none, { f with data := aset (c :: t) v f.data }) := by
      simp [CacheFile.Store, hc]
    rw [hs]
    refine ⟨rfl, ?_, ?_, ?_⟩
    · simp [CacheFile.Lookup, alookup_aset_self]
    · simp [CacheFile.Has, alookup_aset_self]
    · intro n hn
      simp [CacheFile.Lookup, CacheFile.Has, alookup_aset_ne _ _ _ _ hn]

/-- On the empty name `Store` panics, on every entry: the index `name[0]` is out
of range. -/
theorem Store_empty_name (f : CacheFile) (v : Value) :
    f.Store [] v = (some .indexOutOfRange, f) := rfl

/-- C11, at the failing input: the empty name does not begin with `_`, yet
`Store("", true)` on a new entry from `GetFile` ends in the run-time panic
"index out of range" and stores nothing, while `Lookup("")` and `Has("")` on the
same entry return normally. -/
theorem C11_store_empty_name :
    exGet.1 = .ok (entryOf exGet)
      ∧ ([] : GoString).head? ≠ some 0x5F
      ∧ (entryOf exGet).Store [] (.bool true) = (some .indexOutOfRange, entryOf exGet)
      ∧ ((entryOf exGet).Store [] (.bool true)).2.Lookup [] = (.nil, false)
      ∧ ((entryOf exGet).Store [] (.bool true)).2.Has [[]] = false := by
  decide

/-! ## C12: the precedence in `Config.Mock` -/

theorem pickName_some (mc dc : MockConfig) (field : MockConfig → GoString)
    (builtin : GoString) :
    pickName (some mc) (some dc) field builtin
      = .ok (if field mc ≠ [] then field mc else if field dc ≠ [] then field dc else builtin) := by
  unfold pickName
  by_cases h1 : field mc = []
  · by_cases h2 : field dc = [] <;> simp [h1, h2]
  · simp [h1]

/-- When the entries for the package and for `DEFAULT` are absent or not nil,
`Mock` returns a configuration in which each of the three names is that of the
package if not empty, else that of `DEFAULT` if not empty, else the built-in
one; none of the three is empty. -/
theorem Mock_precedence (c : Config) (p : GoString) (mc dc : MockConfig)
    (hp : entryOrZero (alookup p c.Mocks) = some mc)
    (hd : entryOrZero (alookup (lit "DEFAULT") c.Mocks) = some dc) :
    ∃ m, c.Mock p = .ok m
      ∧ m.MOCK = (if mc.MOCK ≠ [] then mc.MOCK else if dc.MOCK ≠ [] then dc.MOCK
          else lit "MOCK")
      ∧ m.EXPECT = (if mc.EXPECT ≠ [] then mc.EXPECT else if dc.EXPECT ≠ [] then dc.EXPECT
          else lit "EXPECT")
      ∧ m.ObjEXPECT = (if mc.ObjEXPECT ≠ [] then mc.ObjEXPECT
          else if dc.ObjEXPECT ≠ [] then dc.ObjEXPECT else lit "EXPECT")
      ∧ m.MOCK ≠ [] ∧ m.EXPECT ≠ [] ∧ m.ObjEXPECT ≠ [] := by
  have e1 : lit "MOCK" ≠ [] := by decide
  have e2 : lit "EXPECT" ≠ [] := by decide
  refine ⟨{ MockConfig.zero with
      MOCK := if mc.MOCK ≠ [] then mc.MOCK else if dc.MOCK ≠ [] then dc.MOCK else lit "MOCK"
      EXPECT := if mc.EXPECT ≠ [] then mc.EXPECT else if dc.EXPECT ≠ [] then dc.EXPECT
        else lit "EXPECT"
      ObjEXPECT := if mc.ObjEXPECT ≠ [] then mc.ObjEXPECT
        else if dc.ObjEXPECT ≠ [] then dc.ObjEXPECT else lit "EXPECT" },
    by simp only [Config.Mock, hp, hd, pickName_some], rfl, rfl, rfl, ?_, ?_, ?_⟩
  · show (if mc.MOCK ≠ [] then mc.MOCK else if dc.MOCK ≠ [] then dc.MOCK else lit "MOCK") ≠ []
    split_ifs with h1 h2
    · exact h1
    · exact h2
    · exact e1
  · show (if mc.EXPECT ≠ [] then mc.EXPECT else if dc.EXPECT ≠ [] then dc.EXPECT
        else lit "EXPECT") ≠ []
    split_ifs with h1 h2
    · exact h1
    · exact h2
    · exact e2
  · show (if mc.ObjEXPECT ≠ [] then mc.ObjEXPECT else if dc.ObjEXPECT ≠ [] then dc.ObjEXPECT
        else lit "EXPECT") ≠ []
    split_ifs with h1 h2
    · exact h1
    · exact h2
    · exact e2

/-- C12, at the failing input: the entry `DEFAULT` of the configuration exists
and is the nil pointer.  For a package without an entry of its own, `Mock` reads
`dc.MOCK` through that pointer and panics instead of returning a configuration;
with a `DEFAULT` entry that is not nil the same call returns the names by
precedence. -/
theorem C12_mock_nil_entry :
    alookup (lit "DEFAULT") exNilConfig.Mocks = some none
      ∧ alookup (lit "net/http") exNilConfig.Mocks = none
      ∧ exNilConfig.Mock (lit "net/http") = .error .nilDereference
      ∧ exConfig.Mock (lit "net/http")
          = .ok { MockConfig.zero with
                  MOCK := lit "HTTPMOCK", EXPECT := lit "Expect", ObjEXPECT := lit "EXPECT" }
      ∧ exConfig.Mock (lit "os")
          = .ok { MockConfig.zero with
                  MOCK := lit "Mock", EXPECT := lit "Expect", ObjEXPECT := lit "EXPECT" } := by
  decide

end Withmock
